import Mathlib

/-!
Verification of the filename sanitization core of `evernote2obsidian`
(`filename_sanitizer.py`).

Strings are modelled as `List Char`.  Python-specific behaviours are modelled
explicitly: `s[:k]` with a possibly negative bound (`pySliceInt`), `str.rstrip`
with a character set (`rstripSet`), `str.strip()` (`pyStrip`, using Python's
whitespace set), `re.sub('_+', '_', s)` (`collapseRuns`), `re.split('[_\-]+')`
(`pySplitRuns`, which keeps empty boundary pieces like Python's `re.split`).
Case mappings (`upper`, `lower`, `isdigit`, `isupper`) are modelled on the
ASCII range; the tokenizer of the program only produces ASCII tokens, and all
constants compared against (reserved device names, stopwords) are ASCII.
-/

/-- The replacement character `'_'` (`REPLACEMENT_CHAR`). -/
def REPLACEMENT_CHAR : Char := '_'

/-- `MAX_COMPONENT = 255`. -/
def MAX_COMPONENT : Nat := 255

/-- `DEFAULT_MAX_BASENAME = 150`. -/
def DEFAULT_MAX_BASENAME : Nat := 150

/-- Characters matched by `FORBIDDEN_CHARS_PATTERN`:
`[<>:"/\\|?*\[\]\^#%]` together with the control characters `0x00`–`0x1f`. -/
def forbiddenChar (c : Char) : Bool :=
  c = '<' || c = '>' || c = ':' || c = '"' || c = '/' || c = '\\' ||
  c = '|' || c = '?' || c = '*' || c = '[' || c = ']' || c = '^' ||
  c = '#' || c = '%' || c.toNat ≤ 31

/-- `WINDOWS_RESERVED`: the reserved device names. -/
def WINDOWS_RESERVED : List (List Char) :=
  [("CON").data, ("PRN").data, ("AUX").data, ("NUL").data,
   ("COM1").data, ("COM2").data, ("COM3").data, ("COM4").data, ("COM5").data,
   ("COM6").data, ("COM7").data, ("COM8").data, ("COM9").data,
   ("LPT1").data, ("LPT2").data, ("LPT3").data, ("LPT4").data, ("LPT5").data,
   ("LPT6").data, ("LPT7").data, ("LPT8").data, ("LPT9").data]

/-- Drop the maximal trailing run of characters satisfying `p` (the recursion
keeps `c` unless everything after it was dropped and `c` itself matches). -/
def rstripBy (p : Char → Bool) : List Char → List Char
  | [] => []
  | c :: cs =>
    let r := rstripBy p cs
    if r = [] && p c then [] else c :: r

/-- Python's `str.rstrip(bad)`: drop the maximal trailing run of characters
belonging to `bad`. -/
def rstripSet (bad : List Char) (s : List Char) : List Char :=
  rstripBy (fun c => bad.contains c) s

/-- Python's whitespace set for `str.strip()` (the characters `c` with
`c.isspace()` in Python). -/
def pyIsSpace (c : Char) : Bool :=
  let n := c.toNat
  (9 ≤ n && n ≤ 13) || n = 28 || n = 29 || n = 30 || n = 31 || n = 32 ||
  n = 133 || n = 160 || n = 5760 || (8192 ≤ n && n ≤ 8202) ||
  n = 8232 || n = 8233 || n = 8239 || n = 8287 || n = 12288

/-- Python's `str.strip()`: drop the maximal leading and trailing runs of
whitespace. -/
def pyStrip (s : List Char) : List Char :=
  rstripBy pyIsSpace (s.dropWhile pyIsSpace)

/-- `re.sub(t+, t, s)`: collapse every run of the character `t` to a single
occurrence. -/
def collapseRuns (t : Char) : List Char → List Char
  | [] => []
  | [c] => [c]
  | c :: d :: rest =>
    if c = t && d = t then collapseRuns t (d :: rest)
    else c :: collapseRuns t (d :: rest)

/-- Python's `s[:k]` for a natural bound. -/
def pySliceNat (s : List Char) (k : Nat) : List Char := s.take k

/-- Python's `s[:k]` for an integer bound: a negative bound counts from the
end of the string. -/
def pySliceInt (s : List Char) (k : Int) : List Char :=
  if 0 ≤ k then s.take k.toNat else s.take (s.length - (-k).toNat)

/-- ASCII upper-casing of a string (Python's `str.upper()` restricted to the
ASCII range, which is all the reserved-name comparison can observe). -/
def upperStr (s : List Char) : List Char := s.map Char.toUpper

/-- ASCII lower-casing of a string (Python's `str.lower()` restricted to the
ASCII range). -/
def lowerStr (s : List Char) : List Char := s.map Char.toLower

/-- The literal fallback name `unnamed`. -/
def unnamedStr : List Char := ("unnamed").data

/-- Membership of the stem in `WINDOWS_RESERVED` (the test
`name.split('.')[0].upper() in WINDOWS_RESERVED`). -/
def isReservedStem (name : List Char) : Bool :=
  WINDOWS_RESERVED.contains (upperStr (name.takeWhile (fun c => c ≠ '.')))

/-- Everything `sanitize_component` does before the length-enforcement step:
forbidden-character replacement, colon replacement, trailing space/dot strip,
placeholder-run collapse, the space conversion block, and the reserved-name
guard. -/
def sanitizeCore (name : List Char) (allowSpaces : Bool) : List Char :=
  let sep : Char := if allowSpaces then ' ' else REPLACEMENT_CHAR
  let n1 := (name.map (fun c => if forbiddenChar c then REPLACEMENT_CHAR else c)).map
    (fun c => if c = ':' then REPLACEMENT_CHAR else c)
  let n2 := collapseRuns '_' (rstripSet (" .").data n1)
  let n3 := if allowSpaces then
      pyStrip (collapseRuns ' ' (n2.map (fun c => if c = '_' then ' ' else c)))
    else n2
  if isReservedStem n3 then sep :: n3 else n3

/-- The position split of `name` at its last dot (`name.rfind('.')`): the stem
and the suffix (the suffix includes the dot).  Only used when `'.' ∈ name`. -/
def splitAtLastDot (s : List Char) : List Char × List Char :=
  let tailLen := (s.reverse.takeWhile (fun c => c ≠ '.')).length
  (s.take (s.length - tailLen - 1), s.drop (s.length - tailLen - 1))

/-- The length-enforcement step of `sanitize_component`: if the result exceeds
`max_length`, split at the last dot and truncate only the stem (Python's
negative-slice behaviour applies when the suffix alone exceeds the budget). -/
def enforceLength (name : List Char) (maxLength : Nat) : List Char :=
  if maxLength < name.length then
    if name.contains '.' then
      let p := splitAtLastDot name
      pySliceInt p.1 ((maxLength : Int) - (p.2.length : Int)) ++ p.2
    else name.take maxLength
  else name

/-- `sanitize_component(name, max_length, allow_spaces)`. -/
def sanitize_component (name : List Char) (maxLength : Nat) (allowSpaces : Bool) :
    List Char :=
  if name = [] then unnamedStr
  else
    let r := enforceLength (sanitizeCore name allowSpaces) maxLength
    if r = [] then unnamedStr else r


/-- Token characters of `tokenize_name`: the regex class `[A-Za-z0-9']`. -/
def isTokChar (c : Char) : Bool :=
  ('A' ≤ c && c ≤ 'Z') || ('a' ≤ c && c ≤ 'z') || ('0' ≤ c && c ≤ '9') ||
  c = Char.ofNat 39

/-- Helper for `tokenize_name`: fold from the right collecting maximal runs;
the boolean records whether the next character belongs to a run. -/
def tokRunsAux (s : List Char) : Bool × List (List Char) :=
  s.foldr
    (fun c acc =>
      if isTokChar c then
        match acc with
        | (true, g :: gs) => (true, (c :: g) :: gs)
        | (true, []) => (true, [[c]])
        | (false, gs) => (true, [c] :: gs)
      else (false, acc.2))
    (false, [])

/-- `tokenize_name(name)`: `re.findall(r"[A-Za-z0-9']+", name)`. -/
def tokenize_name (name : List Char) : List (List Char) :=
  (tokRunsAux name).2

/-- `STOPWORDS` (the entry `it's` contains an apostrophe, `Char.ofNat 39`). -/
def STOPWORDS : List (List Char) :=
  [("the").data, ("a").data, ("an").data, ("and").data, ("or").data,
   ("but").data, ("if").data, ("then").data, ("else").data, ("when").data,
   ("while").data, ("for").data, ("to").data, ("of").data, ("in").data,
   ("on").data, ("at").data, ("by").data, ("from").data, ("with").data,
   ("about").data, ("into").data, ("through").data, ("during").data,
   ("before").data, ("after").data, ("above").data, ("below").data,
   ("over").data, ("under").data, ("again").data, ("further").data,
   ("is").data, ("are").data, ("was").data, ("were").data, ("be").data,
   ("been").data, ("being").data, ("do").data, ("does").data, ("did").data,
   ("doing").data, ("have").data, ("has").data, ("had").data,
   ("having").data, ("it").data, ("its").data,
   (("it").data ++ [Char.ofNat 39] ++ ("s").data),
   ("this").data, ("that").data, ("these").data, ("those").data,
   ("as").data, ("than").data, ("too").data, ("very").data, ("can").data,
   ("will").data, ("just").data, ("not").data, ("no").data, ("you").data,
   ("your").data, ("yours").data, ("we").data, ("our").data, ("ours").data]

/-- `NOISE_TOKENS`. -/
def NOISE_TOKENS : List (List Char) :=
  [("index").data, ("default").data, ("home").data, ("page").data,
   ("http").data, ("https").data, ("www").data, ("html").data, ("htm").data]

/-- `is_informative(tok)`: the case-folded token is neither a stopword nor a
noise token. -/
def is_informative (tok : List Char) : Bool :=
  let t := lowerStr tok
  !(STOPWORDS.contains t || NOISE_TOKENS.contains t)

/-- Python's `str.isdigit()` on the ASCII range (all characters are decimal
digits and the string is nonempty). -/
def pyIsDigitStr (s : List Char) : Bool :=
  !s.isEmpty && s.all Char.isDigit

/-- Split a string at maximal runs of characters satisfying `p`, keeping the
empty boundary pieces, exactly like Python's `re.split('[...]+', s)`.
The boolean of the accumulator records whether the character to the right
belongs to a separator run. -/
def pySplitRunsAux (p : Char → Bool) (s : List Char) :
    Bool × List (List Char) :=
  s.foldr
    (fun c acc =>
      if p c then
        if acc.1 then (true, acc.2) else (true, [] :: acc.2)
      else
        match acc.2 with
        | g :: gs => (false, (c :: g) :: gs)
        | [] => (false, [[c]]))
    (false, [[]])

/-- `re.split(r'[_\-]+', tok)`. -/
def pySplitRuns (p : Char → Bool) (s : List Char) : List (List Char) :=
  (pySplitRunsAux p s).2

/-- Split a string at each occurrence of the character `t` (no run collapse),
used to model which pairs of positions `.*` can span (it does not match a
newline). -/
def splitOnChar (t : Char) (s : List Char) : List (List Char) :=
  s.foldr
    (fun c acc =>
      if c = t then [] :: acc
      else
        match acc with
        | g :: gs => (c :: g) :: gs
        | [] => [[c]])
    [[]]

/-- The test `re.search(r'[A-Z].*[A-Z]', tok)`: some pair of ASCII uppercase
letters with no newline between them, i.e. some newline-free segment holding
at least two uppercase letters. -/
def camelGate (tok : List Char) : Bool :=
  (splitOnChar (Char.ofNat 10) tok).any
    (fun seg => 2 ≤ (seg.filter Char.isUpper).length)

/-- Vowels removed by the vowel-drop strategy. -/
def isVowel (c : Char) : Bool :=
  c = 'a' || c = 'e' || c = 'i' || c = 'o' || c = 'u' ||
  c = 'A' || c = 'E' || c = 'I' || c = 'O' || c = 'U'

/-- `abbreviate_token(tok, max_len)`. -/
def abbreviate_token (tok : List Char) (maxLen : Nat) : List Char :=
  if pyIsDigitStr tok then tok
  else if tok.length ≤ maxLen then tok
  else
    let caps := tok.filter Char.isUpper
    if camelGate tok && (2 ≤ caps.length && caps.length ≤ maxLen) then caps
    else
      let parts := pySplitRuns (fun c => c = '_' || c = '-') tok
      let initials := (parts.filter (fun p => p ≠ [])).map (fun p => p.headD ' ')
      if 1 < parts.length && (2 ≤ initials.length && initials.length ≤ maxLen) then
        initials
      else
        let core := (tok.drop 1).dropLast
        let candidate :=
          (tok.take 1 ++ core.filter (fun c => !isVowel c) ++
            tok.drop (tok.length - 1)).take maxLen
        if candidate.length < 3 && 3 ≤ tok.length then tok.take maxLen
        else candidate

/-- Strategy 1 of `shorten_from_right`: remove non-informative tokens scanning
right to left, re-testing the fit after each removal.  `revL` is the reversed
not-yet-scanned left part, `right` the already-scanned right part.  Returns
an early result (`Sum.inl`) or the final working token list (`Sum.inr`). -/
def strat1 (sep : List Char) (maxLen : Nat) :
    List (List Char) → List (List Char) → Sum (List Char) (List (List Char))
  | [], right => Sum.inr right
  | t :: revL, right =>
    if is_informative t then strat1 sep maxLen revL (t :: right)
    else
      let cur := List.intercalate sep (revL.reverse ++ right)
      if cur.length ≤ maxLen then Sum.inl cur
      else strat1 sep maxLen revL right

/-- Strategy 2 of `shorten_from_right`: abbreviate tokens longer than 10
characters scanning right to left; an abbreviation is kept only when it is
different and strictly shorter, and the fit is re-tested after each kept
abbreviation. -/
def strat2 (sep : List Char) (maxLen : Nat) :
    List (List Char) → List (List Char) → Sum (List Char) (List (List Char))
  | [], right => Sum.inr right
  | t :: revL, right =>
    if 10 < t.length then
      let abbr := abbreviate_token t 10
      if abbr ≠ t && abbr.length < t.length then
        let cur := List.intercalate sep (revL.reverse ++ (abbr :: right))
        if cur.length ≤ maxLen then Sum.inl cur
        else strat2 sep maxLen revL (abbr :: right)
      else strat2 sep maxLen revL (t :: right)
    else strat2 sep maxLen revL (t :: right)

/-- Strategy 3 of `shorten_from_right`, on the reversed token list: drop
tokens from the right (the head of the reversed list) one at a time, keeping
at least the first token, re-testing the fit after each drop. -/
def strat3Rev (sep : List Char) (maxLen : Nat) :
    List (List Char) → Sum (List Char) (List (List Char))
  | [] => Sum.inr []
  | [t] => Sum.inr [t]
  | _t :: rest =>
    let cur := List.intercalate sep rest.reverse
    if cur.length ≤ maxLen then Sum.inl cur else strat3Rev sep maxLen rest

/-- Strategy 3 of `shorten_from_right`: drop tokens from the right one at a
time, keeping at least the first token. -/
def strat3 (sep : List Char) (maxLen : Nat) (ts : List (List Char)) :
    Sum (List Char) (List (List Char)) :=
  match strat3Rev sep maxLen ts.reverse with
  | Sum.inl r => Sum.inl r
  | Sum.inr r => Sum.inr r.reverse

/-- `shorten_from_right(tokens, max_length, separator)`. -/
def shorten_from_right (tokens : List (List Char)) (maxLength : Nat)
    (separator : List Char) : List Char :=
  let current := List.intercalate separator tokens
  if current.length ≤ maxLength then current
  else
    match strat1 separator maxLength tokens.reverse [] with
    | Sum.inl r => r
    | Sum.inr ts1 =>
      match strat2 separator maxLength ts1.reverse [] with
      | Sum.inl r => r
      | Sum.inr ts2 =>
        match strat3 separator maxLength ts2 with
        | Sum.inl r => r
        | Sum.inr ts3 =>
          let current := List.intercalate separator ts3
          if maxLength < current.length then
            rstripSet (separator ++ ("-_ .").data) (current.take maxLength)
          else current

/-- 32-bit word addition. -/
def wadd (a b : Nat) : Nat := (a + b) % 4294967296

/-- 32-bit xor (both arguments below `2^32`). -/
def wxor (a b : Nat) : Nat := Nat.xor a b

/-- 32-bit right rotation. -/
def rotr (x n : Nat) : Nat :=
  ((x >>> n) + (x <<< (32 - n))) % 4294967296

/-- The BLAKE2s initialization vector. -/
def blakeIV : List Nat :=
  [0x6A09E667, 0xBB67AE85, 0x3C6EF372, 0xA54FF53A,
   0x510E527F, 0x9B05688C, 0x1F83D9AB, 0x5BE0CD19]

/-- The BLAKE2s message schedule SIGMA. -/
def blakeSigma : List (List Nat) :=
  [[0, 1, 2, 3, 4, 5, 6, 7, 8, 9, 10, 11, 12, 13, 14, 15],
   [14, 10, 4, 8, 9, 15, 13, 6, 1, 12, 0, 2, 11, 7, 5, 3],
   [11, 8, 12, 0, 5, 2, 15, 13, 10, 14, 3, 6, 7, 1, 9, 4],
   [7, 9, 3, 1, 13, 12, 11, 14, 2, 6, 5, 10, 4, 0, 15, 8],
   [9, 0, 5, 7, 2, 4, 10, 15, 14, 1, 11, 12, 6, 8, 3, 13],
   [2, 12, 6, 10, 0, 11, 8, 3, 4, 13, 7, 5, 15, 14, 1, 9],
   [12, 5, 1, 15, 14, 13, 4, 10, 0, 7, 6, 3, 9, 2, 8, 11],
   [13, 11, 7, 14, 12, 1, 3, 9, 5, 0, 15, 4, 8, 6, 2, 10],
   [6, 15, 14, 9, 11, 3, 0, 8, 12, 2, 13, 7, 1, 4, 10, 5],
   [10, 2, 8, 4, 7, 6, 1, 5, 15, 11, 9, 14, 3, 12, 13, 0]]

/-- The BLAKE2s mixing function G acting on the 16-word state `v`. -/
def blakeG (v : List Nat) (a b c d x y : Nat) : List Nat :=
  let va := wadd (wadd (v.getD a 0) (v.getD b 0)) x
  let vd := rotr (wxor (v.getD d 0) va) 16
  let vc := wadd (v.getD c 0) vd
  let vb := rotr (wxor (v.getD b 0) vc) 12
  let va2 := wadd (wadd va vb) y
  let vd2 := rotr (wxor vd va2) 8
  let vc2 := wadd vc vd2
  let vb2 := rotr (wxor vb vc2) 7
  (((v.set a va2).set b vb2).set c vc2).set d vd2

/-- One BLAKE2s round with schedule row `s` over message words `m`. -/
def blakeRound (m s : List Nat) (v : List Nat) : List Nat :=
  let mi := fun i => m.getD (s.getD i 0) 0
  let v1 := blakeG v 0 4 8 12 (mi 0) (mi 1)
  let v2 := blakeG v1 1 5 9 13 (mi 2) (mi 3)
  let v3 := blakeG v2 2 6 10 14 (mi 4) (mi 5)
  let v4 := blakeG v3 3 7 11 15 (mi 6) (mi 7)
  let v5 := blakeG v4 0 5 10 15 (mi 8) (mi 9)
  let v6 := blakeG v5 1 6 11 12 (mi 10) (mi 11)
  let v7 := blakeG v6 2 7 8 13 (mi 12) (mi 13)
  blakeG v7 3 4 9 14 (mi 14) (mi 15)

/-- Little-endian decoding of four bytes into a word. -/
def leWord (bs : List Nat) : Nat :=
  bs.getD 0 0 + 256 * bs.getD 1 0 + 65536 * bs.getD 2 0 +
    16777216 * bs.getD 3 0

/-- The sixteen little-endian message words of a 64-byte block. -/
def blockWords (block : List Nat) : List Nat :=
  (List.range 16).map (fun i => leWord ((block.drop (4 * i)).take 4))

/-- The BLAKE2s compression function (`t` is the byte counter, `fin` the
final-block flag). -/
def blakeCompress (h : List Nat) (block : List Nat) (t : Nat) (fin : Bool) :
    List Nat :=
  let v0 := h ++ blakeIV
  let v1 := v0.set 12 (wxor (v0.getD 12 0) (t % 4294967296))
  let v2 := v1.set 13 (wxor (v1.getD 13 0) (t / 4294967296 % 4294967296))
  let v3 := if fin then v2.set 14 (wxor (v2.getD 14 0) 4294967295) else v2
  let m := blockWords block
  let vf := blakeSigma.foldl (fun v s => blakeRound m s v) v3
  (List.range 8).map
    (fun i => wxor (wxor (h.getD i 0) (vf.getD i 0)) (vf.getD (i + 8) 0))

/-- Process the message 64-byte block by block; the final (possibly short)
block is zero-padded and compressed with the final flag set.  The fuel is an
upper bound on the number of blocks; with fuel `msg.length` (as used by
`blakeBlocks`) the zero-fuel case is only reached with an empty message, where
it coincides with the final-block case. -/
def blakeBlocksGo : Nat → List Nat → List Nat → Nat → List Nat
  | 0, msg, h, done =>
    blakeCompress h (msg ++ List.replicate (64 - msg.length) 0)
      (done + msg.length) true
  | fuel + 1, msg, h, done =>
    if msg.length ≤ 64 then
      blakeCompress h (msg ++ List.replicate (64 - msg.length) 0)
        (done + msg.length) true
    else
      blakeBlocksGo fuel (msg.drop 64)
        (blakeCompress h (msg.take 64) (done + 64) false) (done + 64)

/-- Process the whole message. -/
def blakeBlocks (msg : List Nat) (h : List Nat) (done : Nat) : List Nat :=
  blakeBlocksGo msg.length msg h done

/-- Serialize a word to four little-endian bytes. -/
def wordLEBytes (w : Nat) : List Nat :=
  [w % 256, w / 256 % 256, w / 65536 % 256, w / 16777216 % 256]

/-- Unkeyed BLAKE2s with digest size `nn` bytes
(`hashlib.blake2s(msg, digest_size=nn).digest()`). -/
def blake2sDigest (msg : List Nat) (nn : Nat) : List Nat :=
  let h0 := blakeIV.set 0
    (wxor (blakeIV.getD 0 0) (wxor 0x01010000 nn))
  (((blakeBlocks msg h0 0).map wordLEBytes).flatten).take nn

/-- A byte as two lowercase hexadecimal characters. -/
def hexChar (n : Nat) : Char :=
  if n < 10 then Char.ofNat (48 + n) else Char.ofNat (87 + n)

/-- Lowercase hex digest of a byte string (`.hexdigest()`). -/
def bytesToHex (bs : List Nat) : List Char :=
  (bs.map (fun b => [hexChar (b / 16), hexChar (b % 16)])).flatten

/-- UTF-8 encoding of one character. -/
def utf8Char (c : Char) : List Nat :=
  let n := c.toNat
  if n < 128 then [n]
  else if n < 2048 then [192 + n / 64, 128 + n % 64]
  else if n < 65536 then [224 + n / 4096, 128 + n / 64 % 64, 128 + n % 64]
  else [240 + n / 262144, 128 + n / 4096 % 64, 128 + n / 64 % 64, 128 + n % 64]

/-- `title.encode('utf-8')`. -/
def utf8Encode (s : List Char) : List Nat :=
  (s.map utf8Char).flatten

/-- Split `original_filename` into `name_part` and `ext_part` at the last dot
(the whole string and `''` when there is no dot). -/
def splitExt (orig : List Char) : List Char × List Char :=
  if orig.contains '.' then splitAtLastDot orig else (orig, [])

/-- Decimal digits of a natural number (Python's `f"{n}"` for `n ≥ 0`). -/
def natDecimal (n : Nat) : List Char :=
  Nat.toDigits 10 n

/-- One collision-loop candidate: `name_part + "-v{counter}"`, truncating the
name part (and stripping trailing `-_ .`) when the result would exceed the
component ceiling. -/
def mkVersionName (orig : List Char) (counter : Nat) : List Char :=
  let p := splitExt orig
  let versionSuffix := ("-v").data ++ natDecimal counter
  let newName := p.1 ++ versionSuffix
  let maxNameLen : Int :=
    (MAX_COMPONENT : Int) - (p.2.length : Int) - (versionSuffix.length : Int)
  let newName2 :=
    if maxNameLen < (newName.length : Int) then
      rstripSet (("-_ .").data) (pySliceInt p.1 maxNameLen) ++ versionSuffix
    else newName
  newName2 ++ p.2

/-- The hash-fallback name: `name_part` truncated to fit, a `-x` plus six hex
characters of the BLAKE2s digest of the title, and the extension part. -/
def mkHashName (orig title : List Char) : List Char :=
  let p := splitExt orig
  let hashSuffix :=
    ("-x").data ++ (bytesToHex (blake2sDigest (utf8Encode title) 4)).take 6
  let maxNameLen : Int :=
    (MAX_COMPONENT : Int) - (p.2.length : Int) - (hashSuffix.length : Int)
  rstripSet (("-_ .").data) (pySliceInt p.1 maxNameLen) ++ hashSuffix ++ p.2

/-- The collision loop of `get_unique_filename_advanced`, instrumented: it
returns the final filename, the final value of `counter`, and whether the
hash fallback fired.  The loop terminates because `counter` increases and the
body breaks as soon as `counter` exceeds 50; the structural fuel argument is
an artifact of the embedding, never exhausted from the actual start
`counter = 2`, `fuel = 50` (see `resolveLoopT_fuel_irrel` and the
termination theorem of C6). -/
def resolveLoopT (existing : List (List Char)) (orig title : List Char) :
    List Char → Nat → Nat → List Char × Nat × Bool
  | filename, counter, 0 => (filename, counter, false)
  | filename, counter, fuel + 1 =>
    if existing.contains (lowerStr filename) then
      let fn := mkVersionName orig counter
      let c := counter + 1
      if 50 < c then (mkHashName orig title, c, true)
      else resolveLoopT existing orig title fn c fuel
    else (filename, counter, false)

/-- The collision loop with explicit fuel, returning `none` when the fuel runs
out before the loop is done. -/
def resolveLoopF (fuel : Nat) (existing : List (List Char))
    (orig title filename : List Char) (counter : Nat) : Option (List Char) :=
  match fuel with
  | 0 => none
  | fuel + 1 =>
    if existing.contains (lowerStr filename) then
      let fn := mkVersionName orig counter
      let c := counter + 1
      if 50 < c then some (mkHashName orig title)
      else resolveLoopF fuel existing orig title fn c
    else some filename

/-- `get_unique_filename_advanced(title, extension, existing_files,
max_base_len, use_spaces)`. -/
def get_unique_filename_advanced (title extension : List Char)
    (existing : List (List Char)) (maxBaseLen : Nat) (useSpaces : Bool) :
    List Char :=
  let tokens := tokenize_name title
  let base0 :=
    if tokens = [] then unnamedStr
    else shorten_from_right tokens maxBaseLen (if useSpaces then [' '] else ['-'])
  let base := sanitize_component base0 maxBaseLen useSpaces
  let filename := sanitize_component (base ++ extension) MAX_COMPONENT useSpaces
  (resolveLoopT existing filename title filename 2 50).1

/-- The `FilenameManager` state: the `use_spaces` flag, the set of issued
(case-folded) filenames, and the title→filename mapping. -/
structure FilenameManager where
  useSpaces : Bool
  existing_files : List (List Char)
  filename_mappings : List (List Char × List Char)

/-- `FilenameManager(use_spaces)`. -/
def FilenameManager.mk0 (useSpaces : Bool) : FilenameManager :=
  ⟨useSpaces, [], []⟩

/-- `FilenameManager.get_sanitized_filename`: run the resolver, record the
case-folded result in the issued set and the mapping, return the result and
the updated manager. -/
def FilenameManager.get_sanitized_filename (m : FilenameManager)
    (title extension : List Char) (maxBaseLen : Nat) :
    List Char × FilenameManager :=
  let s := get_unique_filename_advanced title extension m.existing_files
    maxBaseLen m.useSpaces
  (s, ⟨m.useSpaces, lowerStr s :: m.existing_files,
    (title ++ extension, s) :: m.filename_mappings⟩)

/-- `N` successive calls of `get_sanitized_filename` with one fixed title and
extension; returns the list of results and the final manager. -/
def runSameCalls (m : FilenameManager) (title extension : List Char)
    (maxBaseLen : Nat) : Nat → List (List Char) × FilenameManager
  | 0 => ([], m)
  | n + 1 =>
    let r := m.get_sanitized_filename title extension maxBaseLen
    let rest := runSameCalls r.2 title extension maxBaseLen n
    (r.1 :: rest.1, rest.2)

/-! ### Lemmas about the string utilities -/

theorem mem_dropWhile_mem {p : Char → Bool} {l : List Char} {c : Char}
    (h : c ∈ l.dropWhile p) : c ∈ l := by
  induction l with
  | nil => simpa [List.dropWhile] using h
  | cons a t ih =>
    rw [List.dropWhile] at h
    by_cases hp : p a
    · simp only [hp] at h
      exact List.mem_cons_of_mem a (ih h)
    · simp only [hp] at h
      simpa using h

theorem head?_dropWhile_not {p : Char → Bool} {l : List Char} {c : Char}
    (h : (l.dropWhile p).head? = some c) : p c = false := by
  induction l with
  | nil => simp [List.dropWhile] at h
  | cons a t ih =>
    rw [List.dropWhile] at h
    by_cases hp : p a
    · simp only [hp] at h
      exact ih h
    · simp only [hp] at h
      simp only [List.head?_cons, Option.some.injEq] at h
      subst h
      simpa using hp

theorem dropWhile_length_le {p : Char → Bool} (l : List Char) :
    (l.dropWhile p).length ≤ l.length := by
  induction l with
  | nil => simp [List.dropWhile]
  | cons a t ih =>
    rw [List.dropWhile]
    by_cases hp : p a
    · simp only [hp]
      exact Nat.le_succ_of_le ih
    · simp [hp]

theorem mem_rstripBy {p : Char → Bool} {l : List Char} {c : Char}
    (h : c ∈ rstripBy p l) : c ∈ l := by
  induction l with
  | nil => simpa [rstripBy] using h
  | cons a t ih =>
    rw [rstripBy] at h
    by_cases hc : (rstripBy p t = [] && p a) = true
    · simp [hc] at h
    · simp only [hc] at h
      simp only [Bool.false_eq_true, if_false] at h
      rcases List.mem_cons.mp h with h1 | h2
      · exact h1 ▸ List.mem_cons_self a t
      · exact List.mem_cons_of_mem a (ih h2)

theorem rstripBy_getLast? {p : Char → Bool} {l : List Char} {c : Char}
    (h : (rstripBy p l).getLast? = some c) : p c = false := by
  induction l with
  | nil => simp [rstripBy] at h
  | cons a t ih =>
    rw [rstripBy] at h
    by_cases hc : (rstripBy p t = [] && p a) = true
    · simp [hc] at h
    · simp only [hc, Bool.false_eq_true, if_false] at h
      rcases hr : rstripBy p t with _ | ⟨b, u⟩
      · rw [hr] at h
        simp only [List.getLast?_singleton, Option.some.injEq] at h
        subst h
        rw [hr] at hc
        simpa using hc
      · rw [hr] at h
        rw [List.getLast?_cons_cons] at h
        exact ih (hr ▸ h)

theorem rstripBy_head? {p : Char → Bool} {l : List Char} {c : Char}
    (h : (rstripBy p l).head? = some c) : l.head? = some c := by
  cases l with
  | nil => simp [rstripBy] at h
  | cons a t =>
    rw [rstripBy] at h
    by_cases hc : (rstripBy p t = [] && p a) = true
    · simp [hc] at h
    · simp only [hc, Bool.false_eq_true, if_false] at h
      simpa using h

theorem rstripBy_eq_self {p : Char → Bool} {l : List Char}
    (h : ∀ c, l.getLast? = some c → p c = false) : rstripBy p l = l := by
  induction l with
  | nil => simp [rstripBy]
  | cons a t ih =>
    rw [rstripBy]
    cases t with
    | nil =>
      have := h a (by simp)
      simp [rstripBy, this]
    | cons b u =>
      have ht : rstripBy p (b :: u) = b :: u := by
        apply ih
        intro c hc
        exact h c (by rw [List.getLast?_cons_cons]; exact hc)
      rw [ht]
      simp

theorem rstripBy_length_le {p : Char → Bool} (l : List Char) :
    (rstripBy p l).length ≤ l.length := by
  induction l with
  | nil => simp [rstripBy]
  | cons a t ih =>
    rw [rstripBy]
    by_cases hc : (rstripBy p t = [] && p a) = true
    · simp [hc]
    · simp only [hc, Bool.false_eq_true, if_false, List.length_cons]
      omega

theorem mem_pyStrip {s : List Char} {c : Char} (h : c ∈ pyStrip s) : c ∈ s :=
  mem_dropWhile_mem (mem_rstripBy h)

theorem pyStrip_getLast? {s : List Char} {c : Char}
    (h : (pyStrip s).getLast? = some c) : pyIsSpace c = false :=
  rstripBy_getLast? h

theorem pyStrip_head? {s : List Char} {c : Char}
    (h : (pyStrip s).head? = some c) : pyIsSpace c = false :=
  head?_dropWhile_not (rstripBy_head? h)

theorem mem_collapseRuns {t : Char} {l : List Char} {c : Char}
    (h : c ∈ collapseRuns t l) : c ∈ l := by
  induction l with
  | nil => simpa [collapseRuns] using h
  | cons a rest ih =>
    cases rest with
    | nil => simpa [collapseRuns] using h
    | cons d u =>
      rw [collapseRuns] at h
      by_cases hc : (a = t && d = t) = true
      · simp only [hc, if_true] at h
        exact List.mem_cons_of_mem a (ih h)
      · simp only [hc, Bool.false_eq_true, if_false] at h
        rcases List.mem_cons.mp h with h1 | h2
        · exact h1 ▸ List.mem_cons_self a _
        · exact List.mem_cons_of_mem a (ih h2)

theorem collapseRuns_eq_nil_iff {t : Char} {l : List Char} :
    collapseRuns t l = [] ↔ l = [] := by
  constructor
  · intro h
    cases l with
    | nil => rfl
    | cons a rest =>
      cases rest with
      | nil => simp [collapseRuns] at h
      | cons d u =>
        rw [collapseRuns] at h
        by_cases hc : (a = t && d = t) = true
        · simp only [hc, if_true] at h
          exact absurd (collapseRuns_eq_nil_iff.mp h) (by simp)
        · simp [hc] at h
  · intro h
    subst h
    rfl

theorem collapseRuns_getLast? (t : Char) (l : List Char) :
    (collapseRuns t l).getLast? = l.getLast? := by
  induction l with
  | nil => rfl
  | cons a rest ih =>
    cases rest with
    | nil => rfl
    | cons d u =>
      rw [collapseRuns]
      by_cases hc : (a = t && d = t) = true
      · simp only [hc, if_true]
        rw [ih, List.getLast?_cons_cons]
      · simp only [hc, Bool.false_eq_true, if_false]
        have hne : collapseRuns t (d :: u) ≠ [] := by
          simp [collapseRuns_eq_nil_iff]
        rcases hr : collapseRuns t (d :: u) with _ | ⟨b, v⟩
        · exact absurd hr hne
        · rw [List.getLast?_cons_cons, ← hr, ih, List.getLast?_cons_cons]

theorem collapseRuns_length_le (t : Char) (l : List Char) :
    (collapseRuns t l).length ≤ l.length := by
  induction l with
  | nil => simp [collapseRuns]
  | cons a rest ih =>
    cases rest with
    | nil => simp [collapseRuns]
    | cons d u =>
      rw [collapseRuns]
      simp only [List.length_cons] at ih
      by_cases hc : (a = t && d = t) = true
      · simp only [hc, if_true, List.length_cons]
        omega
      · simp only [hc, Bool.false_eq_true, if_false, List.length_cons]
        omega

/-! ### Character preservation through the sanitizer -/

theorem mem_replMaps {name : List Char} {c : Char}
    (h : c ∈ (name.map (fun c => if forbiddenChar c then REPLACEMENT_CHAR else c)).map
      (fun c => if c = ':' then REPLACEMENT_CHAR else c)) :
    forbiddenChar c = false := by
  rw [List.mem_map] at h
  obtain ⟨b, hb, hbc⟩ := h
  rw [List.mem_map] at hb
  obtain ⟨d, _, hdb⟩ := hb
  cases hf : forbiddenChar d with
  | true =>
    rw [hf, if_pos rfl] at hdb
    subst hdb
    rw [if_neg (by decide)] at hbc
    subst hbc
    decide
  | false =>
    rw [hf] at hdb
    simp only [Bool.false_eq_true, if_false] at hdb
    subst hdb
    by_cases hcol : d = ':'
    · rw [if_pos hcol] at hbc
      subst hbc
      decide
    · rw [if_neg hcol] at hbc
      subst hbc
      exact hf

/-- The body of `sanitizeCore` before the reserved-name guard. -/
def sanitizeBody (name : List Char) (allowSpaces : Bool) : List Char :=
  let n1 := (name.map (fun c => if forbiddenChar c then REPLACEMENT_CHAR else c)).map
    (fun c => if c = ':' then REPLACEMENT_CHAR else c)
  let n2 := collapseRuns '_' (rstripSet (" .").data n1)
  if allowSpaces then
    pyStrip (collapseRuns ' ' (n2.map (fun c => if c = '_' then ' ' else c)))
  else n2

theorem sanitizeCore_eq_guard (name : List Char) (a : Bool) :
    sanitizeCore name a =
      if isReservedStem (sanitizeBody name a) then
        (if a then ' ' else REPLACEMENT_CHAR) :: sanitizeBody name a
      else sanitizeBody name a := by
  cases a <;> rfl

theorem mem_sanitizeBody_not_forbidden {name : List Char} {a : Bool} {c : Char}
    (h : c ∈ sanitizeBody name a) : forbiddenChar c = false := by
  cases a with
  | false =>
    simp only [sanitizeBody, Bool.false_eq_true, if_false] at h
    exact mem_replMaps (mem_rstripBy (mem_collapseRuns h))
  | true =>
    simp only [sanitizeBody, if_true] at h
    have h3 := mem_collapseRuns (mem_pyStrip h)
    rw [List.mem_map] at h3
    obtain ⟨b, hb, hbc⟩ := h3
    have hb2 := mem_replMaps (mem_rstripBy (mem_collapseRuns hb))
    by_cases hu : b = '_'
    · rw [if_pos hu] at hbc
      subst hbc
      decide
    · rw [if_neg hu] at hbc
      subst hbc
      exact hb2

theorem mem_sanitizeCore_not_forbidden {name : List Char} {a : Bool} {c : Char}
    (h : c ∈ sanitizeCore name a) : forbiddenChar c = false := by
  rw [sanitizeCore_eq_guard] at h
  split at h
  · rcases List.mem_cons.mp h with h1 | h2
    · subst h1
      cases a <;> decide
    · exact mem_sanitizeBody_not_forbidden h2
  · exact mem_sanitizeBody_not_forbidden h

theorem mem_enforceLength {s : List Char} {m : Nat} {c : Char}
    (h : c ∈ enforceLength s m) : c ∈ s := by
  simp only [enforceLength] at h
  split at h
  · split at h
    · rw [List.mem_append] at h
      rcases h with h1 | h2
      · have h3 : c ∈ (splitAtLastDot s).1 := by
          simp only [pySliceInt] at h1
          split at h1 <;> exact List.take_subset _ _ h1
        simp only [splitAtLastDot] at h3
        exact List.take_subset _ _ h3
      · simp only [splitAtLastDot] at h2
        exact List.drop_subset _ _ h2
    · exact List.take_subset _ _ h
  · exact h

theorem enforceLength_eq_self {s : List Char} {m : Nat} (h : s.length ≤ m) :
    enforceLength s m = s := by
  simp only [enforceLength]
  rw [if_neg (by omega)]

/-- C9.  For every input string, maximum length and `allow_spaces` setting,
the output of `sanitize_component` contains no character of the forbidden set
`< > : " / \ | ? * [ ] ^ # %` and no control character `0x00`–`0x1F`; in
particular sanitizing `a/b:c*d` yields a string with none of them. -/
theorem sanitize_component_no_forbidden :
    (∀ name m a, ((sanitize_component name m a).all
      (fun c => !(forbiddenChar c))) = true) ∧
    ((sanitize_component (("a/b:c*d").data) 255 true).all
      (fun c => !(forbiddenChar c))) = true := by
  constructor
  · intro name m a
    rw [List.all_eq_true]
    intro c hc
    simp only [sanitize_component] at hc
    split at hc
    · exact (by decide : ∀ x, x ∈ unnamedStr → (!forbiddenChar x) = true) c hc
    · split at hc
      · exact (by decide : ∀ x, x ∈ unnamedStr → (!forbiddenChar x) = true) c hc
      · have h2 := mem_sanitizeCore_not_forbidden (mem_enforceLength hc)
        simp [h2]
  · decide

/-- Helper: the early-return branch of `shorten_from_right`. -/
theorem shorten_fits (tokens : List (List Char)) (maxLength : Nat)
    (separator : List Char)
    (h : (List.intercalate separator tokens).length ≤ maxLength) :
    shorten_from_right tokens maxLength separator =
      List.intercalate separator tokens := by
  simp only [shorten_from_right]
  rw [if_pos h]

/-- C7.  If the tokens joined by the separator already fit within
`max_length`, `shorten_from_right` returns exactly that join, unmodified. -/
theorem shorten_from_right_noop (tokens : List (List Char)) (maxLength : Nat)
    (separator : List Char)
    (h : (List.intercalate separator tokens).length ≤ maxLength) :
    shorten_from_right tokens maxLength separator =
      List.intercalate separator tokens :=
  shorten_fits tokens maxLength separator h

/-- Witness for C7 at a concrete input. -/
theorem shorten_from_right_noop_witness :
    (List.intercalate ([' ']) ([[ 'a' ], [ 'b' ]])).length ≤ 5 ∧
    shorten_from_right ([[ 'a' ], [ 'b' ]]) 5 ([' ']) =
      List.intercalate ([' ']) ([[ 'a' ], [ 'b' ]]) :=
  ⟨by decide, shorten_from_right_noop ([[ 'a' ], [ 'b' ]]) 5 ([' ']) (by decide)⟩

/-- C10.  For every token that does not consist solely of digits and every
`max_len`, the result of `abbreviate_token` has length at most
`max(max_len, len(tok))`; in particular, when the token is longer than
`max_len` the result has length at most `max_len`. -/
theorem abbreviate_token_length (t : List Char) (maxLen : Nat)
    (h : pyIsDigitStr t = false) :
    (abbreviate_token t maxLen).length ≤ max maxLen t.length ∧
    (maxLen < t.length → (abbreviate_token t maxLen).length ≤ maxLen) := by
  simp only [abbreviate_token, h, Bool.false_eq_true, if_false]
  by_cases hle : t.length ≤ maxLen
  · rw [if_pos hle]
    exact ⟨Nat.le_max_right _ _, by omega⟩
  · rw [if_neg hle]
    split_ifs with h1 h2 h3
    · simp only [Bool.and_eq_true, decide_eq_true_eq] at h1
      refine ⟨?_, fun _ => h1.2.2⟩
      exact le_trans h1.2.2 (Nat.le_max_left _ _)
    · simp only [Bool.and_eq_true, decide_eq_true_eq] at h2
      refine ⟨?_, fun _ => h2.2.2⟩
      exact le_trans h2.2.2 (Nat.le_max_left _ _)
    · have hlen : (t.take maxLen).length ≤ maxLen := by
        rw [List.length_take]
        omega
      exact ⟨le_trans hlen (Nat.le_max_left _ _), fun _ => hlen⟩
    · have hlen :
        (((t.take 1 ++ ((t.drop 1).dropLast.filter fun c => !isVowel c) ++
          t.drop (t.length - 1)).take maxLen)).length ≤ maxLen := by
        rw [List.length_take]
        omega
      exact ⟨le_trans hlen (Nat.le_max_left _ _), fun _ => hlen⟩

/-- Witness for C10 at a concrete input. -/
theorem abbreviate_token_length_witness :
    pyIsDigitStr (("supplementary").data) = false ∧
    (abbreviate_token (("supplementary").data) 10).length ≤
      max 10 (("supplementary").data).length ∧
    (10 < (("supplementary").data).length →
      (abbreviate_token (("supplementary").data) 10).length ≤ 10) :=
  ⟨by decide,
    (abbreviate_token_length (("supplementary").data) 10 (by decide)).1,
    (abbreviate_token_length (("supplementary").data) 10 (by decide)).2⟩

/-! ### Length of `sanitize_component` (C2) -/

/-- The length of the segment from the last dot (dot included), `0` when the
string has no dot: the part the length-enforcement step preserves intact. -/
def dotSuffixLen (s : List Char) : Nat :=
  if s.contains '.' then (splitAtLastDot s).2.length else 0

theorem enforceLength_length {s : List Char} {m : Nat}
    (hsfx : dotSuffixLen s ≤ m) : (enforceLength s m).length ≤ m := by
  simp only [enforceLength]
  split
  · rename_i hm
    split
    · rename_i hdot
      rw [dotSuffixLen, if_pos hdot] at hsfx
      rw [List.length_append]
      have hslice : (pySliceInt (splitAtLastDot s).1
          ((m : Int) - ((splitAtLastDot s).2.length : Int))).length ≤
          m - (splitAtLastDot s).2.length := by
        rw [pySliceInt, if_pos (by omega)]
        rw [List.length_take]
        omega
      omega
    · rw [List.length_take]
      omega
  · omega

/-- C2 counterexample: `sanitize_component` can return a string longer than
`max_length` — the `unnamed` fallback ignores the budget, and when the
dot-suffix alone exceeds the budget the negative-slice truncation keeps it. -/
theorem sanitize_component_length_cex :
    3 < (sanitize_component (("").data) 3 true).length ∧
    10 < (sanitize_component (("ab.cccccccccc").data) 10 true).length := by
  decide

/-- C2 (amended).  For every input string and `allow_spaces` setting, if
`max_length` is at least 7 (the length of the `unnamed` fallback) and the
segment from the last dot of the pre-truncation string fits within
`max_length`, then the result of `sanitize_component` has length at most
`max_length`. -/
theorem sanitize_component_length_amended (name : List Char) (m : Nat)
    (a : Bool) (h7 : 7 ≤ m)
    (hsfx : dotSuffixLen (sanitizeCore name a) ≤ m) :
    (sanitize_component name m a).length ≤ m := by
  have hu : unnamedStr.length = 7 := by decide
  simp only [sanitize_component]
  split
  · omega
  · split
    · omega
    · exact enforceLength_length hsfx

/-- Witness for C2 (amended) at a concrete input. -/
theorem sanitize_component_length_amended_witness :
    (7 ≤ 10 ∧ dotSuffixLen (sanitizeCore (("hello").data) true) ≤ 10) ∧
    (sanitize_component (("hello").data) 10 true).length ≤ 10 :=
  ⟨⟨by decide, by decide⟩,
    sanitize_component_length_amended (("hello").data) 10 true (by decide)
      (by decide)⟩

/-! ### Trailing characters of `sanitize_component` (C4) -/

theorem getLast?_cons_ne_nil {a : Char} {l : List Char} (h : l ≠ []) :
    (a :: l).getLast? = l.getLast? := by
  cases l with
  | nil => exact absurd rfl h
  | cons b u => rw [List.getLast?_cons_cons]

theorem sanitizeCore_of_body_nil {name : List Char} {a : Bool}
    (h : sanitizeBody name a = []) : sanitizeCore name a = [] := by
  rw [sanitizeCore_eq_guard, h]
  rw [if_neg (by decide)]

theorem sanitizeCore_getLast?_eq_body {name : List Char} {a : Bool}
    (h : sanitizeBody name a ≠ []) :
    (sanitizeCore name a).getLast? = (sanitizeBody name a).getLast? := by
  rw [sanitizeCore_eq_guard]
  split
  · exact getLast?_cons_ne_nil h
  · rfl

theorem sanitizeBody_getLast?_false {name : List Char} {c : Char}
    (h : (sanitizeBody name false).getLast? = some c) :
    ((" .").data).contains c = false := by
  simp only [sanitizeBody, Bool.false_eq_true, if_false] at h
  rw [collapseRuns_getLast?] at h
  exact rstripBy_getLast? h

theorem sanitizeBody_getLast?_true {name : List Char} {c : Char}
    (h : (sanitizeBody name true).getLast? = some c) : pyIsSpace c = false := by
  simp only [sanitizeBody, if_true] at h
  exact pyStrip_getLast? h

/-- C4 counterexample: the result of `sanitize_component` can end with a
space (truncation cuts inside whitespace) or with a dot (the strip step can
expose a dot that the earlier `rstrip` could not see behind a placeholder). -/
theorem sanitize_component_trailing_cex :
    (sanitize_component (("ab cd").data) 3 true).getLast? = some ' ' ∧
    (sanitize_component (("x.?").data) 255 true).getLast? = some '.' := by
  decide

/-- C4 (amended).  If the pre-truncation string already fits within
`max_length` (so the length-enforcement step does not cut), the result of
`sanitize_component` never ends with a space, and with `allow_spaces = false`
it never ends with a dot either. -/
theorem sanitize_component_trailing_amended (name : List Char) (m : Nat)
    (a : Bool) (hfit : (sanitizeCore name a).length ≤ m) :
    (sanitize_component name m a).getLast? ≠ some ' ' ∧
    (a = false → (sanitize_component name m a).getLast? ≠ some '.') := by
  simp only [sanitize_component]
  split
  · exact ⟨by decide, fun _ => by decide⟩
  · rw [enforceLength_eq_self hfit]
    split
    · exact ⟨by decide, fun _ => by decide⟩
    · rename_i hne
      by_cases hb : sanitizeBody name a = []
      · exact absurd (sanitizeCore_of_body_nil hb) hne
      · rw [sanitizeCore_getLast?_eq_body hb]
        constructor
        · intro hlast
          cases a with
          | true => exact absurd (sanitizeBody_getLast?_true hlast) (by decide)
          | false =>
            exact absurd (sanitizeBody_getLast?_false hlast) (by decide)
        · intro ha hlast
          subst ha
          exact absurd (sanitizeBody_getLast?_false hlast) (by decide)

/-- Witness for C4 (amended) at a concrete input. -/
theorem sanitize_component_trailing_amended_witness :
    (sanitizeCore (("hi").data) true).length ≤ 5 ∧
    ((sanitize_component (("hi").data) 5 true).getLast? ≠ some ' ' ∧
      (true = false → (sanitize_component (("hi").data) 5 true).getLast? ≠
        some '.')) :=
  ⟨by decide, sanitize_component_trailing_amended (("hi").data) 5 true
    (by decide)⟩

/-! ### The collision loop: termination and counter bound (C6) -/

theorem resolveLoopT_invariants (existing : List (List Char))
    (orig title : List Char) :
    ∀ (fuel counter : Nat) (fn : List Char), 51 ≤ counter + fuel →
      counter ≤ 50 →
      resolveLoopF fuel existing orig title fn counter =
        some ((resolveLoopT existing orig title fn counter fuel).1) ∧
      counter ≤ (resolveLoopT existing orig title fn counter fuel).2.1 ∧
      (resolveLoopT existing orig title fn counter fuel).2.1 ≤ 51 ∧
      ((resolveLoopT existing orig title fn counter fuel).2.2 = true ↔
        50 < (resolveLoopT existing orig title fn counter fuel).2.1) := by
  intro fuel
  induction fuel with
  | zero => intro counter fn h1 h2; omega
  | succ f ih =>
    intro counter fn h1 h2
    simp only [resolveLoopT, resolveLoopF]
    by_cases hc : existing.contains (lowerStr fn) = true
    · rw [if_pos hc, if_pos hc]
      by_cases h50 : 50 < counter + 1
      · rw [if_pos h50, if_pos h50]
        refine ⟨rfl, ?_, ?_, ?_⟩ <;> dsimp only <;> first | omega | (simp ; omega) | simp
      · rw [if_neg h50, if_neg h50]
        have := ih (counter + 1) (mkVersionName orig counter) (by omega)
          (by omega)
        exact ⟨this.1, by omega, this.2.2.1, this.2.2.2⟩
    · rw [if_neg hc, if_neg hc]
      refine ⟨rfl, ?_, ?_, ?_⟩ <;> dsimp only <;> first | omega | (simp ; omega) | simp

/-- The fuel of the embedded collision loop is an artifact: any two
sufficient fuels give the same run. -/
theorem resolveLoopT_fuel_irrel (existing : List (List Char))
    (orig title : List Char) :
    ∀ (f1 f2 counter : Nat) (fn : List Char), 51 ≤ counter + f1 →
      51 ≤ counter + f2 → counter ≤ 50 →
      resolveLoopT existing orig title fn counter f1 =
        resolveLoopT existing orig title fn counter f2 := by
  intro f1
  induction f1 with
  | zero => intro f2 counter fn h1 h2 h3; omega
  | succ f ih =>
    intro f2 counter fn h1 h2 h3
    cases f2 with
    | zero => omega
    | succ g =>
      simp only [resolveLoopT]
      by_cases hc : existing.contains (lowerStr fn) = true
      · rw [if_pos hc, if_pos hc]
        by_cases h50 : 50 < counter + 1
        · rw [if_pos h50, if_pos h50]
        · rw [if_neg h50, if_neg h50]
          exact ih g (counter + 1) (mkVersionName orig counter) (by omega)
            (by omega) (by omega)
      · rw [if_neg hc, if_neg hc]

/-- C6.  The collision loop of `get_unique_filename_advanced` always
terminates: started at `counter = 2` it finishes within 50 iterations (the
fueled loop with fuel 50 never runs dry and agrees with the loop used by the
program), the number of version-suffix attempts (final counter minus 2) is at
most 50, and the hash fallback fires exactly when the final counter exceeds
50. -/
theorem resolveLoop_termination (existing : List (List Char))
    (orig title filename : List Char) :
    resolveLoopF 50 existing orig title filename 2 =
      some ((resolveLoopT existing orig title filename 2 50).1) ∧
    ((resolveLoopT existing orig title filename 2 50).2.1 - 2 ≤ 50) ∧
    ((resolveLoopT existing orig title filename 2 50).2.2 = true ↔
      50 < (resolveLoopT existing orig title filename 2 50).2.1) := by
  have h := resolveLoopT_invariants existing orig title 50 2 filename
    (by omega) (by omega)
  exact ⟨h.1, by omega, h.2.2.2⟩

/-! ### The uniqueness bug (C1) -/

set_option maxHeartbeats 4000000 in
set_option maxRecDepth 8000 in
/-- C1 (code bug).  In a fresh `FilenameManager` session, 51 calls of
`get_sanitized_filename` with the identical title `B` and extension `.md`
return the same (nonempty) filename on the 50th and the 51st call: both runs
exhaust the version-suffix counters `-v2`…`-v50` and fall back to the hash
suffix, which depends only on the title and is never re-checked against the
issued set.  This contradicts the claimed pairwise case-insensitive
uniqueness of the returned filenames. -/
theorem manager_uniqueness_violation :
    ((runSameCalls (FilenameManager.mk0 true) (("B").data) ((".md").data)
        150 51).1.getD 49 [] =
      (runSameCalls (FilenameManager.mk0 true) (("B").data) ((".md").data)
        150 51).1.getD 50 []) ∧
    (runSameCalls (FilenameManager.mk0 true) (("B").data) ((".md").data)
        150 51).1.getD 49 [] ≠ [] := by
  decide

/-! ### The reserved-name guard for title `con` (C8) -/

/-- The portion of a filename before the first dot, case-folded (upper) —
the stem the reserved-name guard inspects. -/
def stemUpper (s : List Char) : List Char :=
  upperStr (s.takeWhile (fun c => c ≠ '.'))

theorem takeWhile_append_all {p : Char → Bool} {l1 l2 : List Char}
    (h : ∀ c ∈ l1, p c = true) :
    (l1 ++ l2).takeWhile p = l1 ++ l2.takeWhile p := by
  induction l1 with
  | nil => simp
  | cons a t ih =>
    rw [List.cons_append, List.takeWhile_cons_of_pos (h a (List.mem_cons_self a t))]
    rw [ih (fun c hc => h c (List.mem_cons_of_mem a hc)), List.cons_append]

theorem intercalate_single (s x : List Char) : List.intercalate s [x] = x := by
  simp [List.intercalate]

/-- A string of the shape `u ++ '-' :: w` with a dot-free `u` has a `-` in its
upper-cased first-dot stem. -/
theorem dash_in_stemUpper {u w : List Char} (hu : ∀ c ∈ u, c ≠ '.') :
    '-' ∈ stemUpper (u ++ '-' :: w) := by
  unfold stemUpper upperStr
  rw [takeWhile_append_all (by
    intro c hc
    simpa using hu c hc)]
  rw [List.takeWhile_cons_of_pos (by decide)]
  refine List.mem_map.mpr ⟨'-', ?_, by decide⟩
  exact List.mem_append.mpr (Or.inr (List.mem_cons_self _ _))

theorem mkVersionName_stem_ne {orig : List Char}
    (hnp : ∀ c ∈ (splitExt orig).1, c ≠ '.') (k : Nat) :
    stemUpper (mkVersionName orig k) ≠ ("CON").data := by
  intro h
  have hd : '-' ∈ stemUpper (mkVersionName orig k) := by
    simp only [mkVersionName]
    split
    · rename_i hcond
      have heq :
          rstripSet (("-_ .").data)
              (pySliceInt (splitExt orig).1
                ((MAX_COMPONENT : Int) - ((splitExt orig).2.length : Int) -
                  (((("-v").data) ++ natDecimal k).length : Int))) ++
            (("-v").data ++ natDecimal k) ++ (splitExt orig).2 =
          rstripSet (("-_ .").data)
              (pySliceInt (splitExt orig).1
                ((MAX_COMPONENT : Int) - ((splitExt orig).2.length : Int) -
                  (((("-v").data) ++ natDecimal k).length : Int))) ++
            '-' :: ('v' :: (natDecimal k ++ (splitExt orig).2)) := by
        simp
      rw [heq]
      apply dash_in_stemUpper
      intro c hc
      have hc2 : c ∈ (splitExt orig).1 := by
        have h3 := mem_rstripBy hc
        simp only [pySliceInt] at h3
        split at h3 <;> exact List.take_subset _ _ h3
      exact hnp c hc2
    · have heq : (splitExt orig).1 ++ (("-v").data ++ natDecimal k) ++
          (splitExt orig).2 =
          (splitExt orig).1 ++ '-' :: ('v' :: (natDecimal k ++ (splitExt orig).2)) := by
        simp
      rw [heq]
      exact dash_in_stemUpper hnp
  rw [h] at hd
  exact absurd hd (by decide)

theorem mkHashName_stem_ne {orig title : List Char}
    (hnp : ∀ c ∈ (splitExt orig).1, c ≠ '.') :
    stemUpper (mkHashName orig title) ≠ ("CON").data := by
  intro h
  have hd : '-' ∈ stemUpper (mkHashName orig title) := by
    simp only [mkHashName]
    have heq :
        rstripSet (("-_ .").data)
            (pySliceInt (splitExt orig).1
              ((MAX_COMPONENT : Int) - ((splitExt orig).2.length : Int) -
                (((("-x").data) ++
                  (bytesToHex (blake2sDigest (utf8Encode title) 4)).take 6).length :
                  Int))) ++
          (("-x").data ++ (bytesToHex (blake2sDigest (utf8Encode title) 4)).take 6) ++
          (splitExt orig).2 =
        rstripSet (("-_ .").data)
            (pySliceInt (splitExt orig).1
              ((MAX_COMPONENT : Int) - ((splitExt orig).2.length : Int) -
                (((("-x").data) ++
                  (bytesToHex (blake2sDigest (utf8Encode title) 4)).take 6).length :
                  Int))) ++
          '-' :: ('x' :: ((bytesToHex (blake2sDigest (utf8Encode title) 4)).take 6 ++
            (splitExt orig).2)) := by
      simp
    rw [heq]
    apply dash_in_stemUpper
    intro c hc
    have hc2 : c ∈ (splitExt orig).1 := by
      have h3 := mem_rstripBy hc
      simp only [pySliceInt] at h3
      split at h3 <;> exact List.take_subset _ _ h3
    exact hnp c hc2
  rw [h] at hd
  exact absurd hd (by decide)

/-- Every output of the collision loop keeps a non-`CON` stem, as long as the
initial candidate has one and the name part of the original filename is
dot-free. -/
theorem resolveLoopT_stem_ne (existing : List (List Char)) (orig title : List Char)
    (hnp : ∀ c ∈ (splitExt orig).1, c ≠ '.') :
    ∀ (fuel counter : Nat) (fn : List Char), stemUpper fn ≠ ("CON").data →
      stemUpper ((resolveLoopT existing orig title fn counter fuel).1) ≠
        ("CON").data := by
  intro fuel
  induction fuel with
  | zero => intro counter fn hfn; exact hfn
  | succ f ih =>
    intro counter fn hfn
    simp only [resolveLoopT]
    by_cases hc : existing.contains (lowerStr fn) = true
    · rw [if_pos hc]
      by_cases h50 : 50 < counter + 1
      · rw [if_pos h50]
        exact mkHashName_stem_ne hnp
      · rw [if_neg h50]
        exact ih (counter + 1) (mkVersionName orig counter)
          (mkVersionName_stem_ne hnp counter)
    · rw [if_neg hc]
      exact hfn

/-- C8.  A call with input title `con` and extension `.md` — with any issued
set (hence at any point of any manager session), any `max_base_len` and
either `use_spaces` setting — never yields a filename whose stem (the portion
before the first dot, case-folded) equals `CON`. -/
theorem get_unique_filename_advanced_con_guard (existing : List (List Char))
    (L : Nat) (sp : Bool) :
    stemUpper (get_unique_filename_advanced (("con").data) ((".md").data)
      existing L sp) ≠ ("CON").data := by
  have main : ∀ F : List Char, (∀ c ∈ (splitExt F).1, c ≠ '.') →
      stemUpper F ≠ ("CON").data →
      stemUpper ((resolveLoopT existing F (("con").data) F 2 50).1) ≠
        ("CON").data :=
    fun F h1 h2 => resolveLoopT_stem_ne existing F (("con").data) h1 50 2 F h2
  obtain h4 | h4 := le_or_lt 4 L
  · cases sp with
    | true =>
      have key : get_unique_filename_advanced (("con").data) ((".md").data)
          existing L true =
          (resolveLoopT existing
            (sanitize_component ((sanitize_component
              (shorten_from_right [("con").data] L [' ']) L true) ++
              ((".md").data)) 255 true)
            (("con").data)
            (sanitize_component ((sanitize_component
              (shorten_from_right [("con").data] L [' ']) L true) ++
              ((".md").data)) 255 true) 2 50).1 := rfl
      rw [key]
      have hfit : (List.intercalate [' '] [("con").data]).length ≤ L := by
        rw [intercalate_single]
        have h3 : (("con").data).length = 3 := by decide
        omega
      have hshort : shorten_from_right [("con").data] L [' '] = ("con").data := by
        rw [shorten_fits _ _ _ hfit, intercalate_single]
      have hbase : sanitize_component (("con").data) L true =
          ' ' :: ("con").data := by
        simp only [sanitize_component]
        rw [if_neg (by decide)]
        have hcore : sanitizeCore (("con").data) true = ' ' :: ("con").data := by
          decide
        rw [hcore, enforceLength_eq_self (by
          have h4' : (' ' :: ("con").data).length = 4 := by decide
          omega)]
        rw [if_neg (by decide)]
      rw [hshort, hbase]
      have hfn : sanitize_component ((' ' :: ("con").data) ++ ((".md").data))
          255 true = ((" con.md").data) := by decide
      rw [hfn]
      exact main _ (by decide) (by decide)
    | false =>
      have key : get_unique_filename_advanced (("con").data) ((".md").data)
          existing L false =
          (resolveLoopT existing
            (sanitize_component ((sanitize_component
              (shorten_from_right [("con").data] L ['-']) L false) ++
              ((".md").data)) 255 false)
            (("con").data)
            (sanitize_component ((sanitize_component
              (shorten_from_right [("con").data] L ['-']) L false) ++
              ((".md").data)) 255 false) 2 50).1 := rfl
      rw [key]
      have hfit : (List.intercalate ['-'] [("con").data]).length ≤ L := by
        rw [intercalate_single]
        have h3 : (("con").data).length = 3 := by decide
        omega
      have hshort : shorten_from_right [("con").data] L ['-'] = ("con").data := by
        rw [shorten_fits _ _ _ hfit, intercalate_single]
      have hbase : sanitize_component (("con").data) L false =
          '_' :: ("con").data := by
        simp only [sanitize_component]
        rw [if_neg (by decide)]
        have hcore : sanitizeCore (("con").data) false = '_' :: ("con").data := by
          decide
        rw [hcore, enforceLength_eq_self (by
          have h4' : ('_' :: ("con").data).length = 4 := by decide
          omega)]
        rw [if_neg (by decide)]
      rw [hshort, hbase]
      have hfn : sanitize_component (('_' :: ("con").data) ++ ((".md").data))
          255 false = (("_con.md").data) := by decide
      rw [hfn]
      exact main _ (by decide) (by decide)
  · interval_cases L
    · cases sp with
      | true =>
        show stemUpper ((resolveLoopT existing (("unnamed.md").data)
          (("con").data) (("unnamed.md").data) 2 50).1) ≠ ("CON").data
        exact main _ (by decide) (by decide)
      | false =>
        show stemUpper ((resolveLoopT existing (("unnamed.md").data)
          (("con").data) (("unnamed.md").data) 2 50).1) ≠ ("CON").data
        exact main _ (by decide) (by decide)
    · cases sp with
      | true =>
        show stemUpper ((resolveLoopT existing (("c.md").data)
          (("con").data) (("c.md").data) 2 50).1) ≠ ("CON").data
        exact main _ (by decide) (by decide)
      | false =>
        show stemUpper ((resolveLoopT existing (("c.md").data)
          (("con").data) (("c.md").data) 2 50).1) ≠ ("CON").data
        exact main _ (by decide) (by decide)
    · cases sp with
      | true =>
        show stemUpper ((resolveLoopT existing (("co.md").data)
          (("con").data) (("co.md").data) 2 50).1) ≠ ("CON").data
        exact main _ (by decide) (by decide)
      | false =>
        show stemUpper ((resolveLoopT existing (("co.md").data)
          (("con").data) (("co.md").data) 2 50).1) ≠ ("CON").data
        exact main _ (by decide) (by decide)
    · cases sp with
      | true =>
        show stemUpper ((resolveLoopT existing (("co.md").data)
          (("con").data) (("co.md").data) 2 50).1) ≠ ("CON").data
        exact main _ (by decide) (by decide)
      | false =>
        show stemUpper ((resolveLoopT existing (("_co.md").data)
          (("con").data) (("_co.md").data) 2 50).1) ≠ ("CON").data
        exact main _ (by decide) (by decide)

/-! ### Idempotence machinery (C3) -/

theorem list_map_id_of {f : Char → Char} {l : List Char}
    (h : ∀ c ∈ l, f c = c) : l.map f = l := by
  induction l with
  | nil => rfl
  | cons a t ih =>
    rw [List.map_cons, h a (List.mem_cons_self a t),
      ih (fun c hc => h c (List.mem_cons_of_mem a hc))]

/-- Whether the string holds two adjacent occurrences of `t`. -/
def hasRun (t : Char) : List Char → Bool
  | [] => false
  | [_] => false
  | c :: d :: rest => (c = t && d = t) || hasRun t (d :: rest)

theorem hasRun_of_not_mem {t : Char} {l : List Char} (h : t ∉ l) :
    hasRun t l = false := by
  induction l with
  | nil => rfl
  | cons a rest ih =>
    cases rest with
    | nil => rfl
    | cons d u =>
      rw [hasRun]
      have ha : a ≠ t := fun he => h (he ▸ List.mem_cons_self a _)
      have hrest : t ∉ d :: u := fun hm => h (List.mem_cons_of_mem a hm)
      rw [ih hrest]
      simp [ha]

theorem head?_collapseRuns_of_ne {t d : Char} {rest : List Char} (h : d ≠ t) :
    (collapseRuns t (d :: rest)).head? = some d := by
  cases rest with
  | nil => rfl
  | cons e u =>
    rw [collapseRuns]
    rw [if_neg (by simp [h])]
    rfl

theorem hasRun_collapseRuns (t : Char) (l : List Char) :
    hasRun t (collapseRuns t l) = false := by
  induction l with
  | nil => rfl
  | cons a rest ih =>
    cases rest with
    | nil => rfl
    | cons d u =>
      rw [collapseRuns]
      by_cases hc : (a = t && d = t) = true
      · rw [if_pos hc]
        exact ih
      · rw [if_neg hc]
        rcases hr : collapseRuns t (d :: u) with _ | ⟨x, xs⟩
        · rfl
        · rw [hasRun]
          rw [hr] at ih
          rw [ih, Bool.or_false]
          by_cases hat : a = t
        -- then d ≠ t, and the head of the collapsed tail is d
          · have hd : d ≠ t := by
              intro hdt
              exact hc (by simp [hat, hdt])
            have hx : x = d := by
              have h5 := @head?_collapseRuns_of_ne t d u hd
              rw [hr] at h5
              simpa using h5
            simp [hx, hd]
          · simp [hat]

theorem collapseRuns_of_hasRun_false {t : Char} {l : List Char}
    (h : hasRun t l = false) : collapseRuns t l = l := by
  induction l with
  | nil => rfl
  | cons a rest ih =>
    cases rest with
    | nil => rfl
    | cons d u =>
      rw [hasRun] at h
      rw [Bool.or_eq_false_iff] at h
      rw [collapseRuns, if_neg (by simp [h.1]), ih h.2]

theorem dropWhile_eq_self_of_head {p : Char → Bool} {l : List Char}
    (h : ∀ c, l.head? = some c → p c = false) : l.dropWhile p = l := by
  cases l with
  | nil => rfl
  | cons a t =>
    rw [List.dropWhile_cons_of_neg]
    simp [h a rfl]

theorem hasRun_dropWhile {t : Char} {p : Char → Bool} {l : List Char}
    (h : hasRun t l = false) : hasRun t (l.dropWhile p) = false := by
  induction l with
  | nil => rfl
  | cons a rest ih =>
    by_cases hp : p a = true
    · rw [List.dropWhile_cons_of_pos hp]
      apply ih
      cases rest with
      | nil => rfl
      | cons d u =>
        rw [hasRun] at h
        exact (Bool.or_eq_false_iff.mp h).2
    · rw [List.dropWhile_cons_of_neg (by simp [hp])]
      exact h

theorem hasRun_rstripBy {t : Char} {p : Char → Bool} {l : List Char}
    (h : hasRun t l = false) : hasRun t (rstripBy p l) = false := by
  induction l with
  | nil => rfl
  | cons a rest ih =>
    have hrest : hasRun t rest = false := by
      cases rest with
      | nil => rfl
      | cons d u =>
        rw [hasRun] at h
        exact (Bool.or_eq_false_iff.mp h).2
    rw [rstripBy]
    by_cases hc : (rstripBy p rest = [] && p a) = true
    · rw [if_pos hc]
      rfl
    · rw [if_neg hc]
      rcases hr : rstripBy p rest with _ | ⟨x, xs⟩
      · rfl
      · rw [hasRun]
        rw [hr] at ih
        rw [ih hrest, Bool.or_false]
        have hx : rest.head? = some x := by
          apply rstripBy_head? (p := p) (l := rest)
          rw [hr]
          rfl
        cases rest with
        | nil => simp at hx
        | cons d u =>
          simp only [List.head?_cons, Option.some.injEq] at hx
          subst hx
          rw [hasRun] at h
          have := (Bool.or_eq_false_iff.mp h).1
          simpa using this

theorem hasRun_pyStrip {t : Char} {l : List Char} (h : hasRun t l = false) :
    hasRun t (pyStrip l) = false :=
  hasRun_rstripBy (hasRun_dropWhile h)

theorem pyStrip_noop {l : List Char}
    (hh : ∀ c, l.head? = some c → pyIsSpace c = false)
    (hl : ∀ c, l.getLast? = some c → pyIsSpace c = false) : pyStrip l = l := by
  unfold pyStrip
  rw [dropWhile_eq_self_of_head hh]
  exact rstripBy_eq_self hl

theorem pyStrip_idem (l : List Char) : pyStrip (pyStrip l) = pyStrip l :=
  pyStrip_noop (fun _ h => pyStrip_head? h) (fun _ h => pyStrip_getLast? h)

theorem pyStrip_cons_space (l : List Char) : pyStrip (' ' :: l) = pyStrip l := by
  unfold pyStrip
  rw [List.dropWhile_cons_of_pos (by decide)]

theorem contains_spacedot_false {c : Char} (h1 : c ≠ ' ') (h2 : c ≠ '.') :
    ((" .").data).contains c = false := by
  by_contra h
  rw [Bool.not_eq_false] at h
  have h3 := List.mem_of_elem_eq_true h
  simp only [List.mem_cons, List.not_mem_nil, or_false] at h3
  rcases h3 with h4 | h4
  · exact h1 h4
  · exact h2 h4

theorem reserved_contains_cons_false {x : Char}
    (hx : ∀ m ∈ WINDOWS_RESERVED, m.head? ≠ some x) (l : List Char) :
    WINDOWS_RESERVED.contains (x :: l) = false := by
  by_contra h
  rw [Bool.not_eq_false] at h
  have hm := List.mem_of_elem_eq_true h
  exact hx _ hm rfl

theorem isReservedStem_cons_false {c : Char} (hdot : c ≠ '.')
    (hx : ∀ m ∈ WINDOWS_RESERVED, m.head? ≠ some c.toUpper) (l : List Char) :
    isReservedStem (c :: l) = false := by
  unfold isReservedStem upperStr
  rw [List.takeWhile_cons_of_pos (by simp [hdot]), List.map_cons]
  exact reserved_contains_cons_false hx _

theorem isReservedStem_underscore (l : List Char) :
    isReservedStem ('_' :: l) = false :=
  isReservedStem_cons_false (by decide) (by decide) l

theorem isReservedStem_space (l : List Char) :
    isReservedStem (' ' :: l) = false :=
  isReservedStem_cons_false (by decide) (by decide) l

theorem mem_sanitizeBody_true_ne_underscore {name : List Char} {c : Char}
    (h : c ∈ sanitizeBody name true) : c ≠ '_' := by
  simp only [sanitizeBody, if_true] at h
  have h3 := mem_collapseRuns (mem_pyStrip h)
  rw [List.mem_map] at h3
  obtain ⟨b, _, hbc⟩ := h3
  by_cases hu : b = '_'
  · rw [if_pos hu] at hbc
    subst hbc
    decide
  · rw [if_neg hu] at hbc
    subst hbc
    exact hu

theorem not_mem_underscore_sanitizeCore_true (name : List Char) :
    '_' ∉ sanitizeCore name true := by
  intro h
  rw [sanitizeCore_eq_guard] at h
  simp only [if_true] at h
  split at h
  · rcases List.mem_cons.mp h with h1 | h2
    · exact absurd h1 (by decide)
    · exact mem_sanitizeBody_true_ne_underscore h2 rfl
  · exact mem_sanitizeBody_true_ne_underscore h rfl

theorem hasRun_underscore_body (name : List Char) :
    hasRun '_' (sanitizeBody name false) = false := by
  simp only [sanitizeBody, Bool.false_eq_true, if_false]
  exact hasRun_collapseRuns '_' _

theorem hasRun_underscore_core (name : List Char) :
    hasRun '_' (sanitizeCore name false) = false := by
  rw [sanitizeCore_eq_guard]
  simp only [Bool.false_eq_true, if_false]
  split
  · rename_i hres
    rcases hb : sanitizeBody name false with _ | ⟨x, xs⟩
    · rfl
    · rw [hasRun]
      have hx : x ≠ '_' := by
        intro hxe
        subst hxe
        rw [hb, isReservedStem_underscore] at hres
        exact absurd hres (by decide)
      have h2 : hasRun '_' (x :: xs) = false := hb ▸ hasRun_underscore_body name
      simp [hx, h2]
  · exact hasRun_underscore_body name

theorem hasRun_space_body (name : List Char) :
    hasRun ' ' (sanitizeBody name true) = false := by
  simp only [sanitizeBody, if_true]
  exact hasRun_pyStrip (hasRun_collapseRuns ' ' _)

theorem sanitizeBody_true_head?_ne_space {name : List Char} {c : Char}
    (h : (sanitizeBody name true).head? = some c) : c ≠ ' ' := by
  simp only [sanitizeBody, if_true] at h
  have h2 := pyStrip_head? h
  intro he
  subst he
  exact absurd h2 (by decide)

theorem hasRun_space_core (name : List Char) :
    hasRun ' ' (sanitizeCore name true) = false := by
  rw [sanitizeCore_eq_guard]
  simp only [if_true]
  split
  · rcases hb : sanitizeBody name true with _ | ⟨x, xs⟩
    · rfl
    · rw [hasRun]
      have hx : x ≠ ' ' :=
        sanitizeBody_true_head?_ne_space (by rw [hb]; rfl)
      have h2 : hasRun ' ' (x :: xs) = false := hb ▸ hasRun_space_body name
      simp [hx, h2]
  · exact hasRun_space_body name

theorem sanitizeCore_getLast?_ne_space {name : List Char} {a : Bool} {c : Char}
    (h : (sanitizeCore name a).getLast? = some c) : c ≠ ' ' := by
  by_cases hb : sanitizeBody name a = []
  · rw [sanitizeCore_of_body_nil hb] at h
    simp at h
  · rw [sanitizeCore_getLast?_eq_body hb] at h
    cases a with
    | true =>
      have h2 := sanitizeBody_getLast?_true h
      intro he
      subst he
      exact absurd h2 (by decide)
    | false =>
      have h2 := sanitizeBody_getLast?_false h
      intro he
      subst he
      exact absurd h2 (by decide)

theorem sanitizeCore_false_getLast?_ne_dot {name : List Char} {c : Char}
    (h : (sanitizeCore name false).getLast? = some c) : c ≠ '.' := by
  by_cases hb : sanitizeBody name false = []
  · rw [sanitizeCore_of_body_nil hb] at h
    simp at h
  · rw [sanitizeCore_getLast?_eq_body hb] at h
    have h2 := sanitizeBody_getLast?_false h
    intro he
    subst he
    exact absurd h2 (by decide)

theorem sanitizeCore_idem (s : List Char) (a : Bool)
    (hdot : ∀ c, (sanitizeCore s a).getLast? = some c → c ≠ '.') :
    sanitizeCore (sanitizeCore s a) a = sanitizeCore s a := by
  have h1 : (sanitizeCore s a).map
      (fun c => if forbiddenChar c then REPLACEMENT_CHAR else c) =
      sanitizeCore s a :=
    list_map_id_of (fun c hc => by simp [mem_sanitizeCore_not_forbidden hc])
  have h2 : (sanitizeCore s a).map
      (fun c => if c = ':' then REPLACEMENT_CHAR else c) = sanitizeCore s a :=
    list_map_id_of (fun c hc => by
      have hf := mem_sanitizeCore_not_forbidden hc
      rw [if_neg]
      intro he
      subst he
      exact absurd hf (by decide))
  have hrstrip : rstripSet ((" .").data) (sanitizeCore s a) =
      sanitizeCore s a := by
    unfold rstripSet
    apply rstripBy_eq_self
    intro c hc
    exact contains_spacedot_false (sanitizeCore_getLast?_ne_space hc)
      (hdot c hc)
  cases a with
  | false =>
    have hcol : collapseRuns '_' (sanitizeCore s false) = sanitizeCore s false :=
      collapseRuns_of_hasRun_false (hasRun_underscore_core s)
    have hbody2 : sanitizeBody (sanitizeCore s false) false =
        sanitizeCore s false := by
      simp only [sanitizeBody, Bool.false_eq_true, if_false]
      rw [h1, h2, hrstrip, hcol]
    have hres : isReservedStem (sanitizeCore s false) = false := by
      rw [sanitizeCore_eq_guard s false]
      simp only [Bool.false_eq_true, if_false]
      split
      · exact isReservedStem_underscore _
      · rename_i h
        simpa using h
    rw [sanitizeCore_eq_guard (sanitizeCore s false) false, hbody2, hres]
    simp
  | true =>
    have hcolu : collapseRuns '_' (sanitizeCore s true) = sanitizeCore s true :=
      collapseRuns_of_hasRun_false
        (hasRun_of_not_mem (not_mem_underscore_sanitizeCore_true s))
    have hmapu : (sanitizeCore s true).map
        (fun c => if c = '_' then ' ' else c) = sanitizeCore s true :=
      list_map_id_of (fun c hc => by
        rw [if_neg]
        intro he
        subst he
        exact not_mem_underscore_sanitizeCore_true s hc)
    have hcols : collapseRuns ' ' (sanitizeCore s true) = sanitizeCore s true :=
      collapseRuns_of_hasRun_false (hasRun_space_core s)
    have hbody2 : sanitizeBody (sanitizeCore s true) true =
        pyStrip (sanitizeCore s true) := by
      simp only [sanitizeBody, if_true]
      rw [h1, h2, hrstrip, hcolu, hmapu, hcols]
    have hguard1 := sanitizeCore_eq_guard s true
    simp only [if_true] at hguard1
    cases hres : isReservedStem (sanitizeBody s true) with
    | false =>
      rw [hres] at hguard1
      simp only [Bool.false_eq_true, if_false] at hguard1
      have hstrip : pyStrip (sanitizeCore s true) = sanitizeCore s true := by
        rw [hguard1]
        simp only [sanitizeBody, if_true]
        exact pyStrip_idem _
      rw [sanitizeCore_eq_guard (sanitizeCore s true) true]
      simp only [if_true]
      rw [hbody2, hstrip]
      conv_lhs => rw [hguard1]
      rw [hres]
      simp
      exact hguard1.symm
    | true =>
      rw [hres] at hguard1
      simp only [if_true] at hguard1
      have hstrip : pyStrip (sanitizeCore s true) = sanitizeBody s true := by
        rw [hguard1, pyStrip_cons_space]
        simp only [sanitizeBody, if_true]
        exact pyStrip_idem _
      rw [sanitizeCore_eq_guard (sanitizeCore s true) true]
      simp only [if_true]
      rw [hbody2, hstrip, hres]
      simp
      exact hguard1.symm

theorem sanitize_unnamed (m : Nat) (a : Bool) (h7 : 7 ≤ m) :
    sanitize_component unnamedStr m a = unnamedStr := by
  have hcore : sanitizeCore unnamedStr a = unnamedStr := by
    cases a <;> decide
  simp only [sanitize_component]
  rw [if_neg (by decide), hcore,
    enforceLength_eq_self (by
      have h8 : unnamedStr.length = 7 := by decide
      omega),
    if_neg (by decide)]

/-- C3 counterexample: `sanitize_component` is not idempotent.  A placeholder
behind a trailing dot lets the strip step expose the dot only on the second
pass; a truncation-exposed trailing space is removed on the second pass; and
the `unnamed` fallback gets truncated on the second pass. -/
theorem sanitize_component_idem_cex :
    sanitize_component (sanitize_component (("x.?").data) 255 true) 255 true ≠
      sanitize_component (("x.?").data) 255 true ∧
    sanitize_component (sanitize_component (("ab cd").data) 3 true) 3 true ≠
      sanitize_component (("ab cd").data) 3 true ∧
    sanitize_component (sanitize_component (("").data) 3 true) 3 true ≠
      sanitize_component (("").data) 3 true := by
  decide

/-- C3 (amended).  `sanitize_component` is idempotent — with `max_length` and
`allow_spaces` held fixed — provided `max_length` is at least 7, the
pre-truncation string fits within `max_length` (no truncation), and the first
result does not end with a dot. -/
theorem sanitize_component_idem_amended (s : List Char) (m : Nat) (a : Bool)
    (h7 : 7 ≤ m) (hfit : (sanitizeCore s a).length ≤ m)
    (hdot : (sanitize_component s m a).getLast? ≠ some '.') :
    sanitize_component (sanitize_component s m a) m a =
      sanitize_component s m a := by
  by_cases hs : s = []
  · subst hs
    have he : sanitize_component ([] : List Char) m a = unnamedStr := by
      simp [sanitize_component]
    rw [he, sanitize_unnamed m a h7]
  · simp only [sanitize_component, if_neg hs] at hdot ⊢
    rw [enforceLength_eq_self hfit] at hdot ⊢
    by_cases hr : sanitizeCore s a = []
    · rw [if_pos hr] at hdot ⊢
      exact sanitize_unnamed m a h7
    · rw [if_neg hr] at hdot ⊢
      have hdot2 : ∀ c, (sanitizeCore s a).getLast? = some c → c ≠ '.' :=
        fun c hc he => hdot (he ▸ hc)
      simp only [sanitize_component, if_neg hr]
      rw [sanitizeCore_idem s a hdot2, enforceLength_eq_self hfit, if_neg hr]

/-- Witness for C3 (amended) at a concrete input. -/
theorem sanitize_component_idem_amended_witness :
    (7 ≤ 10 ∧ (sanitizeCore (("hello").data) true).length ≤ 10 ∧
      (sanitize_component (("hello").data) 10 true).getLast? ≠ some '.') ∧
    sanitize_component (sanitize_component (("hello").data) 10 true) 10 true =
      sanitize_component (("hello").data) 10 true :=
  ⟨⟨by decide, by decide, by decide⟩,
    sanitize_component_idem_amended (("hello").data) 10 true (by decide)
      (by decide) (by decide)⟩

/-! ### Length bounds through the pipeline (C5) -/

theorem rstripBy_sublist (p : Char → Bool) (l : List Char) :
    (rstripBy p l).Sublist l := by
  induction l with
  | nil => simp [rstripBy]
  | cons a t ih =>
    rw [rstripBy]
    by_cases hc : (rstripBy p t = [] && p a) = true
    · rw [if_pos hc]
      exact List.nil_sublist _
    · rw [if_neg hc]
      exact List.Sublist.cons₂ a ih

theorem collapseRuns_sublist (t : Char) (l : List Char) :
    (collapseRuns t l).Sublist l := by
  induction l with
  | nil => simp [collapseRuns]
  | cons a rest ih =>
    cases rest with
    | nil => simp [collapseRuns]
    | cons d u =>
      rw [collapseRuns]
      by_cases hc : (a = t && d = t) = true
      · rw [if_pos hc]
        exact List.Sublist.cons a ih
      · rw [if_neg hc]
        exact List.Sublist.cons₂ a ih

theorem pyStrip_sublist (l : List Char) : (pyStrip l).Sublist l :=
  (rstripBy_sublist pyIsSpace _).trans (List.dropWhile_sublist pyIsSpace)

theorem sanitizeBody_length_le (name : List Char) (a : Bool) :
    (sanitizeBody name a).length ≤ name.length := by
  have h1 : ∀ l : List Char,
      ((l.map (fun c => if forbiddenChar c then REPLACEMENT_CHAR else c)).map
        (fun c => if c = ':' then REPLACEMENT_CHAR else c)).length = l.length := by
    intro l
    simp
  cases a with
  | false =>
    simp only [sanitizeBody, Bool.false_eq_true, if_false]
    calc (collapseRuns '_' (rstripSet ((" .").data) _)).length
        ≤ (rstripSet ((" .").data)
            ((name.map (fun c => if forbiddenChar c then REPLACEMENT_CHAR else c)).map
              (fun c => if c = ':' then REPLACEMENT_CHAR else c))).length :=
          collapseRuns_length_le '_' _
      _ ≤ _ := by
          rw [← h1 name]
          exact rstripBy_length_le _
  | true =>
    simp only [sanitizeBody, if_true]
    calc (pyStrip (collapseRuns ' ' _)).length
        ≤ (collapseRuns ' '
            ((collapseRuns '_' (rstripSet ((" .").data)
              ((name.map (fun c => if forbiddenChar c then REPLACEMENT_CHAR else c)).map
                (fun c => if c = ':' then REPLACEMENT_CHAR else c)))).map
              (fun c => if c = '_' then ' ' else c))).length :=
          (pyStrip_sublist _).length_le
      _ ≤ ((collapseRuns '_' (rstripSet ((" .").data)
            ((name.map (fun c => if forbiddenChar c then REPLACEMENT_CHAR else c)).map
              (fun c => if c = ':' then REPLACEMENT_CHAR else c)))).map
            (fun c => if c = '_' then ' ' else c)).length :=
          collapseRuns_length_le ' ' _
      _ ≤ _ := by
          rw [List.length_map]
          calc (collapseRuns '_' (rstripSet ((" .").data) _)).length
              ≤ (rstripSet ((" .").data) _).length := collapseRuns_length_le '_' _
            _ ≤ _ := by
                rw [← h1 name]
                exact rstripBy_length_le _

theorem sanitizeCore_length_le (name : List Char) (a : Bool) :
    (sanitizeCore name a).length ≤ name.length + 1 := by
  rw [sanitizeCore_eq_guard]
  split
  · rw [List.length_cons]
    have := sanitizeBody_length_le name a
    omega
  · have := sanitizeBody_length_le name a
    omega

theorem mem_sanitizeCore_cases {name : List Char} {a : Bool} {c : Char}
    (h : c ∈ sanitizeCore name a) : c = '_' ∨ c = ' ' ∨ c ∈ name := by
  rw [sanitizeCore_eq_guard] at h
  have hbody : ∀ d, d ∈ sanitizeBody name a → d = '_' ∨ d = ' ' ∨ d ∈ name := by
    intro d hd
    have hmem : ∀ e, e ∈ ((name.map
        (fun x => if forbiddenChar x then REPLACEMENT_CHAR else x)).map
        (fun x => if x = ':' then REPLACEMENT_CHAR else x)) →
        e = '_' ∨ e ∈ name := by
      intro e he
      rw [List.mem_map] at he
      obtain ⟨b, hb, hbc⟩ := he
      rw [List.mem_map] at hb
      obtain ⟨x, hx, hxb⟩ := hb
      by_cases hf : forbiddenChar x = true
      · rw [if_pos hf] at hxb
        subst hxb
        rw [if_neg (by decide)] at hbc
        subst hbc
        left
        rfl
      · rw [if_neg hf] at hxb
        subst hxb
        by_cases hcol : x = ':'
        · rw [if_pos hcol] at hbc
          subst hbc
          left
          rfl
        · rw [if_neg hcol] at hbc
          subst hbc
          right
          exact hx
    cases a with
    | false =>
      simp only [sanitizeBody, Bool.false_eq_true, if_false] at hd
      rcases hmem d (mem_rstripBy (mem_collapseRuns hd)) with h1 | h1
      · exact Or.inl h1
      · exact Or.inr (Or.inr h1)
    | true =>
      simp only [sanitizeBody, if_true] at hd
      have h3 := mem_collapseRuns (mem_pyStrip hd)
      rw [List.mem_map] at h3
      obtain ⟨b, hb, hbc⟩ := h3
      by_cases hu : b = '_'
      · rw [if_pos hu] at hbc
        subst hbc
        right
        left
        rfl
      · rw [if_neg hu] at hbc
        subst hbc
        rcases hmem b (mem_rstripBy (mem_collapseRuns hb)) with h1 | h1
        · exact Or.inl h1
        · exact Or.inr (Or.inr h1)
  split at h
  · rcases List.mem_cons.mp h with h1 | h1
    · subst h1
      cases a with
      | true => right; left; rfl
      | false => left; rfl
    · exact hbody c h1
  · exact hbody c h

theorem sanitizeCore_dot_free {name : List Char} {a : Bool}
    (h : ('.' : Char) ∉ name) : ('.' : Char) ∉ sanitizeCore name a := by
  intro hc
  rcases mem_sanitizeCore_cases hc with h1 | h1 | h1
  · exact absurd h1 (by decide)
  · exact absurd h1 (by decide)
  · exact h h1

theorem enforceLength_length_le (s : List Char) (m : Nat) :
    (enforceLength s m).length ≤ max m s.length := by
  simp only [enforceLength]
  split
  · split
    · rw [List.length_append]
      have hsplit : (splitAtLastDot s).1.length + (splitAtLastDot s).2.length =
          s.length := by
        have := List.take_append_drop
          (s.length - (s.reverse.takeWhile (fun c => c ≠ '.')).length - 1) s
        have h2 := congrArg List.length this
        rw [List.length_append] at h2
        simpa [splitAtLastDot] using h2
      have hslice : (pySliceInt (splitAtLastDot s).1
          ((m : Int) - ((splitAtLastDot s).2.length : Int))).length ≤
          (splitAtLastDot s).1.length := by
        simp only [pySliceInt]
        split <;> · rw [List.length_take]; omega
      by_cases hm : (splitAtLastDot s).2.length ≤ m
      · have hslice2 : (pySliceInt (splitAtLastDot s).1
            ((m : Int) - ((splitAtLastDot s).2.length : Int))).length ≤
            m - (splitAtLastDot s).2.length := by
          simp only [pySliceInt]
          rw [if_pos (by omega)]
          rw [List.length_take]
          omega
        omega
      · omega
    · rw [List.length_take]
      omega
  · omega

theorem sanitize_component_length_le (s : List Char) (m : Nat) (a : Bool) :
    (sanitize_component s m a).length ≤ max (max m 7) (s.length + 1) := by
  have hu : unnamedStr.length = 7 := by decide
  simp only [sanitize_component]
  split
  · omega
  · split
    · omega
    · have h1 := enforceLength_length_le (sanitizeCore s a) m
      have h2 := sanitizeCore_length_le s a
      omega

theorem sanitize_component_dotfree_length (s : List Char) (m : Nat) (a : Bool)
    (h7 : 7 ≤ m) (hdot : ('.' : Char) ∉ s) :
    (sanitize_component s m a).length ≤ m := by
  have hu : unnamedStr.length = 7 := by decide
  simp only [sanitize_component]
  split
  · omega
  · split
    · omega
    · apply enforceLength_length
      rw [dotSuffixLen, if_neg]
      · omega
      · have := sanitizeCore_dot_free (a := a) hdot
        intro hc
        exact this (List.mem_of_elem_eq_true hc)

theorem tokenize_name_chars {s : List Char} :
    ∀ t ∈ tokenize_name s, ∀ c ∈ t, isTokChar c = true := by
  unfold tokenize_name
  induction s with
  | nil =>
    intro t ht
    simp [tokRunsAux] at ht
  | cons a s' ih =>
    intro t ht c hc
    rw [tokRunsAux, List.foldr_cons] at ht
    rcases htr : tokRunsAux s' with ⟨b, gs⟩
    rw [tokRunsAux] at htr
    rw [htr] at ht
    have ih2 : ∀ t ∈ gs, ∀ c ∈ t, isTokChar c = true := by
      intro t2 ht2
      apply ih
      rw [tokRunsAux, htr]
      exact ht2
    by_cases ha : isTokChar a = true
    · rw [if_pos ha] at ht
      cases b with
      | true =>
        cases gs with
        | nil =>
          simp only at ht
          rcases List.mem_cons.mp ht with h1 | h1
          · subst h1
            rcases List.mem_cons.mp hc with h2 | h2
            · subst h2
              exact ha
            · simp at h2
          · simp at h1
        | cons g gs' =>
          simp only at ht
          rcases List.mem_cons.mp ht with h1 | h1
          · subst h1
            rcases List.mem_cons.mp hc with h2 | h2
            · subst h2
              exact ha
            · exact ih2 g (List.mem_cons_self _ _) c h2
          · exact ih2 t (List.mem_cons_of_mem _ h1) c hc
      | false =>
        simp only at ht
        rcases List.mem_cons.mp ht with h1 | h1
        · subst h1
          rcases List.mem_cons.mp hc with h2 | h2
          · subst h2
            exact ha
          · simp at h2
        · exact ih2 t h1 c hc
    · rw [if_neg ha] at ht
      simp only at ht
      exact ih2 t ht c hc

theorem pySplitRuns_mem {p : Char → Bool} {s : List Char} :
    ∀ g ∈ (pySplitRunsAux p s).2, ∀ c ∈ g, c ∈ s := by
  induction s with
  | nil =>
    intro g hg c hc
    simp only [pySplitRunsAux, List.foldr_nil] at hg
    rcases List.mem_cons.mp hg with h1 | h1
    · subst h1
      simp at hc
    · simp at h1
  | cons a s' ih =>
    intro g hg c hc
    rw [pySplitRunsAux, List.foldr_cons] at hg
    rcases htr : pySplitRunsAux p s' with ⟨b, gs⟩
    rw [pySplitRunsAux] at htr
    rw [htr] at hg
    have ih2 : ∀ g ∈ gs, ∀ c ∈ g, c ∈ s' := by
      intro g2 hg2
      apply ih
      rw [pySplitRunsAux, htr]
      exact hg2
    by_cases hp : p a = true
    · rw [if_pos hp] at hg
      cases b with
      | true =>
        simp only at hg
        exact List.mem_cons_of_mem a (ih2 g hg c hc)
      | false =>
        simp only at hg
        rcases List.mem_cons.mp hg with h1 | h1
        · subst h1
          simp at hc
        · exact List.mem_cons_of_mem a (ih2 g h1 c hc)
    · rw [if_neg hp] at hg
      cases gs with
      | nil =>
        simp only at hg
        rcases List.mem_cons.mp hg with h1 | h1
        · subst h1
          rcases List.mem_cons.mp hc with h2 | h2
          · subst h2
            exact List.mem_cons_self _ _
          · simp at h2
        · simp at h1
      | cons g0 gs' =>
        simp only at hg
        rcases List.mem_cons.mp hg with h1 | h1
        · subst h1
          rcases List.mem_cons.mp hc with h2 | h2
          · subst h2
            exact List.mem_cons_self _ _
          · exact List.mem_cons_of_mem a (ih2 g0 (List.mem_cons_self _ _) c h2)
        · exact List.mem_cons_of_mem a (ih2 g (List.mem_cons_of_mem _ h1) c hc)

theorem abbreviate_token_subset {t : List Char} {n : Nat} {c : Char}
    (h : c ∈ abbreviate_token t n) : c ∈ t := by
  simp only [abbreviate_token] at h
  split at h
  · exact h
  · split at h
    · exact h
    · split at h
      · exact List.filter_subset' _ h
      · split at h
        · rw [List.mem_map] at h
          obtain ⟨g, hg, hgc⟩ := h
          rw [List.mem_filter] at hg
          obtain ⟨hg1, hg2⟩ := hg
          cases g with
          | nil => simp at hg2
          | cons x xs =>
            simp only [List.headD_cons] at hgc
            subst hgc
            exact pySplitRuns_mem _ hg1 _ (List.mem_cons_self _ _)
        · split at h
          · exact List.take_subset _ _ h
          · have h2 := List.take_subset _ _ h
            rcases List.mem_append.mp h2 with h3 | h3
            · rcases List.mem_append.mp h3 with h4 | h4
              · exact List.take_subset _ _ h4
              · have h5 := List.filter_subset' _ h4
                have h6 : c ∈ (t.drop 1).take ((t.drop 1).length - 1) := by
                  rw [← List.dropLast_eq_take]
                  exact h5
                exact List.drop_subset _ _ (List.take_subset _ _ h6)
            · exact List.drop_subset _ _ h3

theorem mem_intersperse_aux {sep : List Char} {ts : List (List Char)}
    {l : List Char} (h : l ∈ ts.intersperse sep) : l = sep ∨ l ∈ ts := by
  induction ts with
  | nil => simp [List.intersperse] at h
  | cons x rest ih =>
    cases rest with
    | nil =>
      simp only [List.intersperse_singleton] at h
      rcases List.mem_cons.mp h with h1 | h1
      · exact Or.inr (h1 ▸ List.mem_cons_self _ _)
      · simp at h1
    | cons y r =>
      rw [List.intersperse_cons₂] at h
      rcases List.mem_cons.mp h with h1 | h1
      · exact Or.inr (h1 ▸ List.mem_cons_self _ _)
      · rcases List.mem_cons.mp h1 with h2 | h2
        · exact Or.inl h2
        · rcases ih h2 with h3 | h3
          · exact Or.inl h3
          · exact Or.inr (List.mem_cons_of_mem _ h3)

theorem mem_intercalate {sep : List Char} {ts : List (List Char)} {c : Char}
    (h : c ∈ List.intercalate sep ts) : c ∈ sep ∨ ∃ t ∈ ts, c ∈ t := by
  rw [List.intercalate] at h
  rw [List.mem_flatten] at h
  obtain ⟨l, hl, hcl⟩ := h
  rcases mem_intersperse_aux hl with h1 | h1
  · exact Or.inl (h1 ▸ hcl)
  · exact Or.inr ⟨l, h1, hcl⟩

/-- Invariant carried through the shortening cascade: an early-returned string
has no dot, a surviving working token list has no dot in any token. -/
def SumDotFree (x : Sum (List Char) (List (List Char))) : Prop :=
  match x with
  | Sum.inl r => ∀ c ∈ r, c ≠ '.'
  | Sum.inr ts => ∀ t ∈ ts, ∀ c ∈ t, c ≠ '.'

theorem intercalate_dotfree {sep : List Char} {ts : List (List Char)}
    (hsep : ∀ c ∈ sep, c ≠ '.') (hts : ∀ t ∈ ts, ∀ c ∈ t, c ≠ '.') :
    ∀ c ∈ List.intercalate sep ts, c ≠ '.' := by
  intro c hc
  rcases mem_intercalate hc with h1 | ⟨t, ht, hct⟩
  · exact hsep c h1
  · exact hts t ht c hct

theorem strat1_dotfree {sep : List Char} {L : Nat}
    (hsep : ∀ c ∈ sep, c ≠ '.') :
    ∀ (revL right : List (List Char)),
      (∀ t ∈ revL, ∀ c ∈ t, c ≠ '.') → (∀ t ∈ right, ∀ c ∈ t, c ≠ '.') →
      SumDotFree (strat1 sep L revL right) := by
  intro revL
  induction revL with
  | nil =>
    intro right _ hr
    exact hr
  | cons t revL' ih =>
    intro right hl hr
    rw [strat1]
    dsimp only
    have hlt : ∀ c ∈ t, c ≠ '.' := hl t (List.mem_cons_self _ _)
    have hl' : ∀ t2 ∈ revL', ∀ c ∈ t2, c ≠ '.' :=
      fun t2 ht2 => hl t2 (List.mem_cons_of_mem _ ht2)
    by_cases hi : is_informative t = true
    · rw [if_pos hi]
      apply ih (t :: right) hl'
      intro t2 ht2
      rcases List.mem_cons.mp ht2 with h1 | h1
      · exact h1 ▸ hlt
      · exact hr t2 h1
    · rw [if_neg hi]
      split
      · intro c hc
        apply intercalate_dotfree hsep ?_ c hc
        intro t2 ht2
        rcases List.mem_append.mp ht2 with h1 | h1
        · exact hl' t2 (List.mem_reverse.mp h1)
        · exact hr t2 h1
      · exact ih right hl' hr

theorem strat2_dotfree {sep : List Char} {L : Nat}
    (hsep : ∀ c ∈ sep, c ≠ '.') :
    ∀ (revL right : List (List Char)),
      (∀ t ∈ revL, ∀ c ∈ t, c ≠ '.') → (∀ t ∈ right, ∀ c ∈ t, c ≠ '.') →
      SumDotFree (strat2 sep L revL right) := by
  intro revL
  induction revL with
  | nil =>
    intro right _ hr
    exact hr
  | cons t revL' ih =>
    intro right hl hr
    rw [strat2]
    dsimp only
    have hlt : ∀ c ∈ t, c ≠ '.' := hl t (List.mem_cons_self _ _)
    have hl' : ∀ t2 ∈ revL', ∀ c ∈ t2, c ≠ '.' :=
      fun t2 ht2 => hl t2 (List.mem_cons_of_mem _ ht2)
    have habbr : ∀ c ∈ abbreviate_token t 10, c ≠ '.' :=
      fun c hc => hlt c (abbreviate_token_subset hc)
    have hkeep : ∀ t2 ∈ t :: right, ∀ c ∈ t2, c ≠ '.' := by
      intro t2 ht2
      rcases List.mem_cons.mp ht2 with h1 | h1
      · exact h1 ▸ hlt
      · exact hr t2 h1
    have hrepl : ∀ t2 ∈ abbreviate_token t 10 :: right, ∀ c ∈ t2, c ≠ '.' := by
      intro t2 ht2
      rcases List.mem_cons.mp ht2 with h1 | h1
      · exact h1 ▸ habbr
      · exact hr t2 h1
    split
    · split
      · split
        · intro c hc
          apply intercalate_dotfree hsep ?_ c hc
          intro t2 ht2
          rcases List.mem_append.mp ht2 with h1 | h1
          · exact hl' t2 (List.mem_reverse.mp h1)
          · exact hrepl t2 h1
        · exact ih (abbreviate_token t 10 :: right) hl' hrepl
      · exact ih (t :: right) hl' hkeep
    · exact ih (t :: right) hl' hkeep

theorem strat3Rev_dotfree {sep : List Char} {L : Nat}
    (hsep : ∀ c ∈ sep, c ≠ '.') :
    ∀ (l : List (List Char)), (∀ t ∈ l, ∀ c ∈ t, c ≠ '.') →
      SumDotFree (strat3Rev sep L l) := by
  intro l
  induction l with
  | nil =>
    intro _
    intro t ht
    simp at ht
  | cons t rest ih =>
    intro hl
    cases rest with
    | nil =>
      intro t2 ht2 c hc
      rcases List.mem_cons.mp ht2 with h1 | h1
      · exact hl t2 (h1 ▸ List.mem_cons_self _ _) c hc
      · simp at h1
    | cons u r =>
      show SumDotFree (if (List.intercalate sep (u :: r).reverse).length ≤ L
        then Sum.inl (List.intercalate sep (u :: r).reverse)
        else strat3Rev sep L (u :: r))
      have hl' : ∀ t2 ∈ u :: r, ∀ c ∈ t2, c ≠ '.' :=
        fun t2 ht2 => hl t2 (List.mem_cons_of_mem _ ht2)
      split
      · intro c hc
        apply intercalate_dotfree hsep ?_ c hc
        intro t2 ht2
        exact hl' t2 (List.mem_reverse.mp ht2)
      · exact ih hl'

theorem mem_rstripSet {bad s : List Char} {c : Char}
    (h : c ∈ rstripSet bad s) : c ∈ s :=
  mem_rstripBy h

theorem shorten_from_right_dotfree {ts : List (List Char)} {L : Nat}
    {sep : List Char} (hsep : ∀ c ∈ sep, c ≠ '.')
    (hts : ∀ t ∈ ts, ∀ c ∈ t, c ≠ '.') :
    ∀ c ∈ shorten_from_right ts L sep, c ≠ '.' := by
  simp only [shorten_from_right]
  split
  · exact intercalate_dotfree hsep hts
  · have h1 := @strat1_dotfree sep L hsep ts.reverse []
      (fun t ht => hts t (List.mem_reverse.mp ht)) (by simp)
    rcases hs1 : strat1 sep L ts.reverse [] with r | ts1
    · rw [hs1] at h1
      exact h1
    · rw [hs1] at h1
      dsimp only
      have h2 := @strat2_dotfree sep L hsep ts1.reverse []
        (fun t ht => h1 t (List.mem_reverse.mp ht)) (by simp)
      rcases hs2 : strat2 sep L ts1.reverse [] with r | ts2
      · rw [hs2] at h2
        exact h2
      · rw [hs2] at h2
        dsimp only
        simp only [strat3]
        have h3 := @strat3Rev_dotfree sep L hsep ts2.reverse
          (fun t ht => h2 t (List.mem_reverse.mp ht))
        rcases hs3 : strat3Rev sep L ts2.reverse with r | ts3
        · rw [hs3] at h3
          exact h3
        · rw [hs3] at h3
          dsimp only
          have h4 : ∀ t ∈ ts3.reverse, ∀ c ∈ t, c ≠ '.' :=
            fun t ht => h3 t (List.mem_reverse.mp ht)
          split
          · intro c hc
            have hc2 := List.take_subset _ _ (mem_rstripSet hc)
            exact intercalate_dotfree hsep h4 c hc2
          · exact intercalate_dotfree hsep h4

theorem strat1_inl_length {sep : List Char} {L : Nat} :
    ∀ (revL right : List (List Char)) (r : List Char),
      strat1 sep L revL right = Sum.inl r → r.length ≤ L := by
  intro revL
  induction revL with
  | nil =>
    intro right r h
    simp [strat1] at h
  | cons t revL' ih =>
    intro right r h
    rw [strat1] at h
    dsimp only at h
    by_cases hi : is_informative t = true
    · rw [if_pos hi] at h
      exact ih (t :: right) r h
    · rw [if_neg hi] at h
      split at h
      · rename_i hfit
        cases h
        exact hfit
      · exact ih right r h

theorem strat2_inl_length {sep : List Char} {L : Nat} :
    ∀ (revL right : List (List Char)) (r : List Char),
      strat2 sep L revL right = Sum.inl r → r.length ≤ L := by
  intro revL
  induction revL with
  | nil =>
    intro right r h
    simp [strat2] at h
  | cons t revL' ih =>
    intro right r h
    rw [strat2] at h
    dsimp only at h
    split at h
    · split at h
      · split at h
        · rename_i hfit
          cases h
          exact hfit
        · exact ih _ r h
      · exact ih _ r h
    · exact ih _ r h

theorem strat3Rev_inl_length {sep : List Char} {L : Nat} :
    ∀ (l : List (List Char)) (r : List Char),
      strat3Rev sep L l = Sum.inl r → r.length ≤ L := by
  intro l
  induction l with
  | nil =>
    intro r h
    simp [strat3Rev] at h
  | cons t rest ih =>
    intro r h
    cases rest with
    | nil => simp [strat3Rev] at h
    | cons u q =>
      rw [strat3Rev] at h
      · try dsimp only at h
        split at h
        · rename_i hfit
          cases h
          exact hfit
        · exact ih r h
      · simp

theorem shorten_from_right_length (ts : List (List Char)) (L : Nat)
    (sep : List Char) : (shorten_from_right ts L sep).length ≤ L := by
  simp only [shorten_from_right]
  split
  · rename_i h
    exact h
  · rcases hs1 : strat1 sep L ts.reverse [] with r | ts1
    · exact strat1_inl_length ts.reverse [] r hs1
    · dsimp only
      rcases hs2 : strat2 sep L ts1.reverse [] with r | ts2
      · exact strat2_inl_length ts1.reverse [] r hs2
      · dsimp only
        simp only [strat3]
        rcases hs3 : strat3Rev sep L ts2.reverse with r | ts3
        · exact strat3Rev_inl_length ts2.reverse r hs3
        · dsimp only
          split
          · calc (rstripSet (sep ++ (("-_ .").data))
                ((List.intercalate sep ts3.reverse).take L)).length
                ≤ ((List.intercalate sep ts3.reverse).take L).length :=
                  rstripBy_length_le _
              _ ≤ L := by
                  rw [List.length_take]
                  omega
          · rename_i hgt
            omega

/-- The string splits as a dot-free part followed by a tail of length at most
`k`: every dot of the string lies within the last `k` characters. -/
def TailBound (s : List Char) (k : Nat) : Prop :=
  ∃ u v, s = u ++ v ∧ ('.' : Char) ∉ u ∧ v.length ≤ k

theorem TailBound_sublist {s s' : List Char} {k : Nat} (hsub : s'.Sublist s)
    (h : TailBound s k) : TailBound s' k := by
  obtain ⟨u, v, rfl, hu, hv⟩ := h
  rw [List.sublist_append_iff] at hsub
  obtain ⟨l1, l2, rfl, h1, h2⟩ := hsub
  exact ⟨l1, l2, rfl, fun hc => hu (h1.subset hc), le_trans h2.length_le hv⟩

theorem TailBound_map {s : List Char} {k : Nat} {f : Char → Char}
    (hf : ∀ c, c ≠ '.' → f c ≠ '.') (h : TailBound s k) :
    TailBound (s.map f) k := by
  obtain ⟨u, v, rfl, hu, hv⟩ := h
  refine ⟨u.map f, v.map f, by rw [List.map_append], ?_, by simpa using hv⟩
  intro hc
  rw [List.mem_map] at hc
  obtain ⟨b, hb, hbc⟩ := hc
  exact hf b (fun he => hu (he ▸ hb)) hbc

theorem TailBound_cons {s : List Char} {k : Nat} {c : Char} (hc : c ≠ '.')
    (h : TailBound s k) : TailBound (c :: s) k := by
  obtain ⟨u, v, rfl, hu, hv⟩ := h
  refine ⟨c :: u, v, rfl, ?_, hv⟩
  intro hmem
  rcases List.mem_cons.mp hmem with h1 | h1
  · exact hc h1.symm
  · exact hu h1

theorem TailBound_sanitizeCore {s : List Char} {k : Nat} {a : Bool}
    (h : TailBound s k) : TailBound (sanitizeCore s a) k := by
  have hmap1 : TailBound (s.map
      (fun c => if forbiddenChar c then REPLACEMENT_CHAR else c)) k :=
    TailBound_map (fun c hc => by
      split
      · decide
      · exact hc) h
  have hmap2 : TailBound ((s.map
      (fun c => if forbiddenChar c then REPLACEMENT_CHAR else c)).map
      (fun c => if c = ':' then REPLACEMENT_CHAR else c)) k :=
    TailBound_map (fun c hc => by
      split
      · decide
      · exact hc) hmap1
  have hbody : TailBound (sanitizeBody s a) k := by
    cases a with
    | false =>
      simp only [sanitizeBody, Bool.false_eq_true, if_false]
      exact TailBound_sublist ((collapseRuns_sublist _ _).trans
        (rstripBy_sublist _ _)) hmap2
    | true =>
      simp only [sanitizeBody, if_true]
      have h2 : TailBound (collapseRuns '_'
          (rstripSet ((" .").data) ((s.map
            (fun c => if forbiddenChar c then REPLACEMENT_CHAR else c)).map
            (fun c => if c = ':' then REPLACEMENT_CHAR else c)))) k :=
        TailBound_sublist ((collapseRuns_sublist _ _).trans
          (rstripBy_sublist _ _)) hmap2
      have h3 := TailBound_map (f := fun c => if c = '_' then ' ' else c)
        (fun c hc => by
          show (if c = '_' then ' ' else c) ≠ '.'
          split
          · decide
          · exact hc) h2
      exact TailBound_sublist ((pyStrip_sublist _).trans
        (collapseRuns_sublist _ _)) h3
  rw [sanitizeCore_eq_guard]
  split
  · apply TailBound_cons ?_ hbody
    split <;> decide
  · exact hbody

theorem enforceLength_sublist (s : List Char) (m : Nat) :
    (enforceLength s m).Sublist s := by
  simp only [enforceLength]
  split
  · split
    · have happ := List.take_append_drop
        (s.length - (s.reverse.takeWhile (fun c => c ≠ '.')).length - 1) s
      simp only [splitAtLastDot]
      conv_rhs => rw [← happ]
      apply List.Sublist.append
      · simp only [pySliceInt]
        split <;> exact List.take_sublist _ _
      · exact List.Sublist.refl _
    · exact List.take_sublist _ _
  · exact List.Sublist.refl s

theorem TailBound_sanitize_component {s : List Char} {k m : Nat} {a : Bool}
    (h : TailBound s k) : TailBound (sanitize_component s m a) k := by
  have hun : TailBound unnamedStr k := ⟨unnamedStr, [], by simp, by decide, by simp⟩
  simp only [sanitize_component]
  split
  · exact hun
  · split
    · exact hun
    · exact TailBound_sublist (enforceLength_sublist _ _)
        (TailBound_sanitizeCore h)

theorem takeWhile_length_lt {p : Char → Bool} {l : List Char}
    (h : ∃ c ∈ l, p c = false) : (l.takeWhile p).length < l.length := by
  induction l with
  | nil => simp at h
  | cons a t ih =>
    by_cases hp : p a = true
    · rw [List.takeWhile_cons_of_pos hp, List.length_cons, List.length_cons]
      have h2 : ∃ c ∈ t, p c = false := by
        obtain ⟨c, hc, hcp⟩ := h
        rcases List.mem_cons.mp hc with h1 | h1
        · subst h1
          rw [hp] at hcp
          simp at hcp
        · exact ⟨c, h1, hcp⟩
      have := ih h2
      omega
    · rw [List.takeWhile_cons_of_neg (by simpa using hp)]
      simp

theorem takeWhile_append_stop {p : Char → Bool} {x y : List Char}
    (h : ∃ c ∈ x, p c = false) :
    (x ++ y).takeWhile p = x.takeWhile p := by
  induction x with
  | nil => simp at h
  | cons a t ih =>
    by_cases hp : p a = true
    · rw [List.cons_append, List.takeWhile_cons_of_pos hp,
        List.takeWhile_cons_of_pos hp]
      have h2 : ∃ c ∈ t, p c = false := by
        obtain ⟨c, hc, hcp⟩ := h
        rcases List.mem_cons.mp hc with h1 | h1
        · subst h1
          rw [hp] at hcp
          simp at hcp
        · exact ⟨c, h1, hcp⟩
      rw [ih h2]
    · rw [List.cons_append, List.takeWhile_cons_of_neg (by simpa using hp),
        List.takeWhile_cons_of_neg (by simpa using hp)]

theorem splitExt_append (orig : List Char) :
    (splitExt orig).1 ++ (splitExt orig).2 = orig := by
  simp only [splitExt]
  split
  · simp only [splitAtLastDot]
    exact List.take_append_drop _ _
  · simp

theorem splitExt_tail_le {orig : List Char} {k : Nat} (h : TailBound orig k) :
    (splitExt orig).2.length ≤ k := by
  simp only [splitExt]
  split
  · rename_i hcont
    have hdot : ('.' : Char) ∈ orig := List.mem_of_elem_eq_true hcont
    obtain ⟨u, v, rfl, hu, hv⟩ := h
    have hdotv : ('.' : Char) ∈ v := by
      rcases List.mem_append.mp hdot with h1 | h1
      · exact absurd h1 hu
      · exact h1
    have hrev : (u ++ v).reverse = v.reverse ++ u.reverse := by
      rw [List.reverse_append]
    simp only [splitAtLastDot, hrev]
    have hstop : ((v.reverse ++ u.reverse).takeWhile (fun c => c ≠ '.')) =
        v.reverse.takeWhile (fun c => c ≠ '.') := by
      apply takeWhile_append_stop
      exact ⟨'.', List.mem_reverse.mpr hdotv, by simp⟩
    rw [hstop]
    have hlt : (v.reverse.takeWhile (fun c => c ≠ '.')).length <
        v.reverse.length := by
      apply takeWhile_length_lt
      exact ⟨'.', List.mem_reverse.mpr hdotv, by simp⟩
    rw [List.length_reverse] at hlt
    rw [List.length_drop]
    rw [List.length_append]
    omega
  · simp

theorem pySliceInt_length_le (s : List Char) (k : Int) :
    (pySliceInt s k).length ≤ s.length := by
  simp only [pySliceInt]
  split <;> · rw [List.length_take]; omega

theorem pySliceInt_length_le_toNat (s : List Char) (k : Int) (h : 0 ≤ k) :
    (pySliceInt s k).length ≤ k.toNat := by
  simp only [pySliceInt, if_pos h]
  rw [List.length_take]
  omega

theorem pySliceInt_length_neg (s : List Char) (k : Int) (h : k < 0) :
    (pySliceInt s k).length ≤ s.length - (-k).toNat := by
  rw [pySliceInt, if_neg (by omega)]
  rw [List.length_take]
  omega

theorem natDecimal_length_le {k : Nat} (h : k ≤ 99) :
    (natDecimal k).length ≤ 2 := by
  interval_cases k <;> decide

theorem blakeCompress_length (h block : List Nat) (t : Nat) (fin : Bool) :
    (blakeCompress h block t fin).length = 8 := by
  simp [blakeCompress]

theorem blakeBlocksGo_length :
    ∀ (fuel : Nat) (msg h : List Nat) (done : Nat),
      (blakeBlocksGo fuel msg h done).length = 8 := by
  intro fuel
  induction fuel with
  | zero =>
    intro msg h done
    rw [blakeBlocksGo]
    exact blakeCompress_length _ _ _ _
  | succ f ih =>
    intro msg h done
    rw [blakeBlocksGo]
    split
    · exact blakeCompress_length _ _ _ _
    · exact ih _ _ _

theorem flatten_wordLEBytes_length (l : List Nat) :
    ((l.map wordLEBytes).flatten).length = 4 * l.length := by
  induction l with
  | nil => simp
  | cons a t ih =>
    simp only [List.map_cons, List.flatten_cons, List.length_append, ih,
      List.length_cons]
    simp [wordLEBytes]
    omega

theorem blake2sDigest_length (msg : List Nat) :
    (blake2sDigest msg 4).length = 4 := by
  simp only [blake2sDigest, blakeBlocks]
  rw [List.length_take, flatten_wordLEBytes_length, blakeBlocksGo_length]
  omega

theorem bytesToHex_length (bs : List Nat) :
    (bytesToHex bs).length = 2 * bs.length := by
  induction bs with
  | nil => simp [bytesToHex]
  | cons a t ih =>
    simp only [bytesToHex, List.map_cons, List.flatten_cons, List.length_append]
    simp only [bytesToHex] at ih
    rw [ih]
    simp
    omega


theorem truncTotal_le {R S np ep vs L lext : Nat} {m : Int}
    (hmd : m = 255 - (ep : Int) - (vs : Int))
    (hR : R ≤ S)
    (hSpos : 0 ≤ m → S ≤ m.toNat)
    (hSneg : m < 0 → S ≤ np - (-m).toNat)
    (hvs : vs ≤ 8) (htail : ep ≤ lext)
    (hor : np + ep ≤ max 255 (L + lext + 1)) (h7 : 7 ≤ L) :
    R + vs + ep ≤ max 255 (L + lext + 8) := by
  by_cases h : 0 ≤ m
  · have := hSpos h
    omega
  · have := hSneg (by omega)
    omega

theorem mkVersionName_length {orig : List Char} {c : Nat} {lext L : Nat}
    (hvs : (natDecimal c).length ≤ 2)
    (htail : (splitExt orig).2.length ≤ lext)
    (hor : orig.length ≤ max 255 (L + lext + 1)) (h7 : 7 ≤ L) :
    (mkVersionName orig c).length ≤ max 255 (L + lext + 8) := by
  have hsplit := congrArg List.length (splitExt_append orig)
  rw [List.length_append] at hsplit
  obtain ⟨np, ep, hps⟩ : ∃ np ep, splitExt orig = (np, ep) := ⟨_, _, rfl⟩
  rw [hps] at hsplit htail
  dsimp only at hsplit htail
  simp only [mkVersionName, hps]
  split
  · rw [List.length_append, List.length_append]
    exact truncTotal_le (by simp only [MAX_COMPONENT]; push_cast; ring)
      (rstripBy_length_le _)
      (fun h => pySliceInt_length_le_toNat np _ h)
      (fun h => pySliceInt_length_neg np _ h)
      (by
        simp only [List.length_append, List.length_cons, List.length_nil]
        omega)
      htail (by omega) h7
  · rename_i hcond
    simp only [MAX_COMPONENT, List.length_append, List.length_cons,
      List.length_nil] at hcond ⊢
    push_cast at hcond
    omega

theorem mkHashName_length {orig title : List Char} {lext L : Nat}
    (htail : (splitExt orig).2.length ≤ lext)
    (hor : orig.length ≤ max 255 (L + lext + 1)) (h7 : 7 ≤ L) :
    (mkHashName orig title).length ≤ max 255 (L + lext + 8) := by
  have hsplit := congrArg List.length (splitExt_append orig)
  rw [List.length_append] at hsplit
  obtain ⟨np, ep, hps⟩ : ∃ np ep, splitExt orig = (np, ep) := ⟨_, _, rfl⟩
  rw [hps] at hsplit htail
  dsimp only at hsplit htail
  simp only [mkHashName, hps]
  rw [List.length_append, List.length_append]
  exact truncTotal_le (by simp only [MAX_COMPONENT]; push_cast; ring)
    (rstripBy_length_le _)
    (fun h => pySliceInt_length_le_toNat np _ h)
    (fun h => pySliceInt_length_neg np _ h)
    (by
      simp only [List.length_append, List.length_take, List.length_cons,
        List.length_nil, bytesToHex_length, blake2sDigest_length]
      omega)
    htail (by omega) h7

theorem sanitize_component_dotfree {s : List Char} {m : Nat} {a : Bool}
    (h : ('.' : Char) ∉ s) : ('.' : Char) ∉ sanitize_component s m a := by
  simp only [sanitize_component]
  split
  · decide
  · split
    · decide
    · intro hc
      exact sanitizeCore_dot_free h ((enforceLength_sublist _ _).subset hc)

theorem resolveLoopT_length {existing : List (List Char)}
    {orig title : List Char} {lext L : Nat}
    (htail : (splitExt orig).2.length ≤ lext)
    (hor : orig.length ≤ max 255 (L + lext + 1)) (h7 : 7 ≤ L) :
    ∀ (fuel : Nat) (filename : List Char) (counter : Nat),
      filename.length ≤ max 255 (L + lext + 8) →
      ((resolveLoopT existing orig title filename counter fuel).1).length ≤
        max 255 (L + lext + 8) := by
  intro fuel
  induction fuel with
  | zero =>
    intro filename counter hf
    rw [resolveLoopT]
    exact hf
  | succ f ih =>
    intro filename counter hf
    rw [resolveLoopT]
    split
    · dsimp only
      split
      · exact mkHashName_length htail hor h7
      · rename_i hc
        exact ih _ _
          (mkVersionName_length (natDecimal_length_le (by omega)) htail hor h7)
    · exact hf

theorem isTokChar_ne_dot {c : Char} (h : isTokChar c = true) : c ≠ '.' := by
  intro he
  subst he
  exact absurd h (by decide)

theorem advanced_no_collision (title ext : List Char) (L : Nat) (sp : Bool)
    (b : List Char)
    (hb : sanitize_component
        (if tokenize_name title = [] then unnamedStr
         else shorten_from_right (tokenize_name title) L
           (if sp then [' '] else ['-'])) L sp = b) :
    get_unique_filename_advanced title ext [] L sp =
      sanitize_component (b ++ ext) MAX_COMPONENT sp := by
  simp only [get_unique_filename_advanced, hb]
  rw [resolveLoopT]
  rw [if_neg (by simp)]

theorem getLast?_replicate_succ (c : Char) :
    ∀ n, (List.replicate (n + 1) c).getLast? = some c := by
  intro n
  induction n with
  | zero => rfl
  | succ m ih =>
    rw [List.replicate_succ, List.replicate_succ, List.getLast?_cons_cons,
      ← List.replicate_succ]
    exact ih

theorem sanitizeCore_noop_plain {s : List Char}
    (hchars : ∀ c ∈ s,
      forbiddenChar c = false ∧ c ≠ ':' ∧ c ≠ '_' ∧ c ≠ ' ')
    (hlast : ∀ c, s.getLast? = some c →
      ((" .").data.contains c) = false ∧ pyIsSpace c = false)
    (hhead : ∀ c, s.head? = some c → pyIsSpace c = false)
    (hres : isReservedStem s = false) :
    sanitizeCore s true = s := by
  have h1 : (s.map fun c => if forbiddenChar c then REPLACEMENT_CHAR else c)
      = s := list_map_id_of (fun c hc => by rw [(hchars c hc).1]; rfl)
  have h2 : (s.map fun c => if c = ':' then REPLACEMENT_CHAR else c) = s :=
    list_map_id_of (fun c hc => if_neg (hchars c hc).2.1)
  have h3 : rstripSet ((" .").data) s = s :=
    rstripBy_eq_self (fun c hc => (hlast c hc).1)
  have h4 : collapseRuns '_' s = s :=
    collapseRuns_of_hasRun_false (hasRun_of_not_mem
      (fun hm => absurd rfl (hchars '_' hm).2.2.1))
  have h5 : (s.map fun c => if c = '_' then ' ' else c) = s :=
    list_map_id_of (fun c hc => if_neg (hchars c hc).2.2.1)
  have h6 : collapseRuns ' ' s = s :=
    collapseRuns_of_hasRun_false (hasRun_of_not_mem
      (fun hm => absurd rfl (hchars ' ' hm).2.2.2))
  have h7 : pyStrip s = s :=
    pyStrip_noop hhead (fun c hc => (hlast c hc).2)
  simp only [sanitizeCore]
  rw [h1, h2, h3, h4, h5, h6, h7]
  simp [hres]

theorem enforceLength_longtail {y : List Char}
    (hy : ∀ c ∈ y, (c ≠ '.' : Bool) = true) (hlen : 255 < y.length) :
    enforceLength ('a' :: '.' :: y) 255 = '.' :: y := by
  have hrev : ('a' :: '.' :: y).reverse = y.reverse ++ ['.', 'a'] := by
    rw [List.reverse_cons, List.reverse_cons]
    simp
  have hcont : ('a' :: '.' :: y).contains '.' = true := by simp
  rw [enforceLength, if_pos (by simp; omega), if_pos hcont]
  simp only [splitAtLastDot, hrev]
  rw [takeWhile_append_all
      (fun c hc => hy c (List.mem_reverse.mp hc)),
    List.takeWhile_cons_of_neg (by decide)]
  simp only [List.append_nil, List.length_reverse, List.length_cons]
  have he1 : y.length + 1 + 1 - y.length - 1 = 1 := by omega
  rw [he1]
  have he2 : ('a' :: '.' :: y).take 1 = ['a'] := rfl
  have he3 : ('a' :: '.' :: y).drop 1 = '.' :: y := rfl
  rw [he2, he3]
  have he4 : pySliceInt ['a']
      ((((255 : Nat)) : Int) - (('.' :: y).length : Int)) = [] := by
    rw [pySliceInt, if_neg (by simp; omega)]
    rw [show (['a'] : List Char).length - (-((((255 : Nat)) : Int) -
        ((('.' :: y).length : Nat) : Int))).toNat = 0 from by simp; omega]
    rfl
  rw [he4]
  rfl

set_option maxRecDepth 2000 in
/-- **C5** (counterexample to the stated bound): with a 301-character
dot-suffix in the extension, `get_unique_filename_advanced` returns a
filename of length 301 — the "specifically ≤ 255" part of the claim fails,
because the length-enforcement step preserves the whole dot-suffix intact
even when the suffix alone exceeds the 255-character ceiling. -/
theorem get_unique_filename_advanced_length_cex :
    255 < (get_unique_filename_advanced (("a").data)
      ('.' :: List.replicate 300 'x') [] 150 true).length := by
  rw [advanced_no_collision (("a").data) ('.' :: List.replicate 300 'x')
    150 true (("a").data) (by decide)]
  have happ : ("a").data ++ ('.' :: List.replicate 300 'x') =
      'a' :: '.' :: List.replicate 300 'x' := rfl
  rw [happ, show MAX_COMPONENT = 255 from rfl]
  have hmem : ∀ c ∈ ('a' :: '.' :: List.replicate 300 'x'),
      c = 'a' ∨ c = '.' ∨ c = 'x' := by
    intro c hc
    rcases List.mem_cons.mp hc with h | h
    · exact Or.inl h
    rcases List.mem_cons.mp h with h2 | h2
    · exact Or.inr (Or.inl h2)
    · exact Or.inr (Or.inr (List.eq_of_mem_replicate h2))
  have hlast : ('a' :: '.' :: List.replicate 300 'x').getLast? = some 'x' := by
    rw [List.getLast?_cons_cons]
    have h300 : (300 : Nat) = 299 + 1 := rfl
    cases h2 : List.replicate 300 'x' with
    | nil =>
      rw [h300] at h2
      exact absurd h2 (by simp [List.replicate_succ])
    | cons d l =>
      rw [← h2, h300]
      exact getLast?_replicate_succ 'x' 299
  have hcore : sanitizeCore ('a' :: '.' :: List.replicate 300 'x') true =
      'a' :: '.' :: List.replicate 300 'x' := by
    apply sanitizeCore_noop_plain
    · intro c hc
      rcases hmem c hc with h | h | h <;> subst h <;>
        exact ⟨by decide, by decide, by decide, by decide⟩
    · intro c hc
      rw [hlast] at hc
      cases hc
      exact ⟨by decide, by decide⟩
    · intro c hc
      cases hc
      decide
    · rw [isReservedStem]
      rw [List.takeWhile_cons_of_pos (by decide),
        List.takeWhile_cons_of_neg (by decide)]
      decide
  have henf : enforceLength ('a' :: '.' :: List.replicate 300 'x') 255 =
      '.' :: List.replicate 300 'x' :=
    enforceLength_longtail
      (fun c hc => by rw [List.eq_of_mem_replicate hc]; decide)
      (by simp)
  rw [sanitize_component]
  rw [if_neg (by simp)]
  simp only [hcore, henf]
  rw [if_neg (by simp)]
  simp

/-- **C5** (amended): for `max_base_len = L ≥ 7` (the `unnamed` fallback
length), every filename produced by `get_unique_filename_advanced` has
length at most `max 255 (L + ext.length + 8)`, where 8 accounts for the
widest collision suffix (`-x` plus six hash characters, or `-v` plus the
counter digits).  The absolute 255 ceiling claimed by the specification
does not hold (see the counterexample), but this combined bound does. -/
theorem get_unique_filename_advanced_length_amended
    (title ext : List Char) (existing : List (List Char)) (L : Nat) (sp : Bool)
    (h7 : 7 ≤ L) :
    (get_unique_filename_advanced title ext existing L sp).length ≤
      max 255 (L + ext.length + 8) := by
  have key : ∀ b0 : List Char, ('.' : Char) ∉ b0 → b0.length ≤ L →
      ((resolveLoopT existing
        (sanitize_component (sanitize_component b0 L sp ++ ext) MAX_COMPONENT sp)
        title
        (sanitize_component (sanitize_component b0 L sp ++ ext) MAX_COMPONENT sp)
        2 50).1).length ≤ max 255 (L + ext.length + 8) := by
    intro b0 hdot hlen
    have hb : ('.' : Char) ∉ sanitize_component b0 L sp :=
      sanitize_component_dotfree hdot
    have hbl : (sanitize_component b0 L sp).length ≤ L :=
      sanitize_component_dotfree_length b0 L sp h7 hdot
    have htb : TailBound (sanitize_component
        (sanitize_component b0 L sp ++ ext) MAX_COMPONENT sp) ext.length :=
      TailBound_sanitize_component ⟨_, ext, rfl, hb, le_rfl⟩
    have htail := splitExt_tail_le htb
    have hor : (sanitize_component (sanitize_component b0 L sp ++ ext)
        MAX_COMPONENT sp).length ≤ max 255 (L + ext.length + 1) := by
      have h1 := sanitize_component_length_le
        (sanitize_component b0 L sp ++ ext) MAX_COMPONENT sp
      rw [List.length_append] at h1
      have hmc : MAX_COMPONENT = 255 := rfl
      omega
    exact resolveLoopT_length htail hor h7 50 _ 2 (by omega)
  simp only [get_unique_filename_advanced]
  by_cases htok : tokenize_name title = []
  · rw [if_pos htok]
    exact key unnamedStr (by decide)
      (by
        have h : unnamedStr.length = 7 := by decide
        omega)
  · rw [if_neg htok]
    have hsep : ∀ c ∈ (if sp then [' '] else ['-']), c ≠ '.' := by
      cases sp <;> decide
    have hts : ∀ t ∈ tokenize_name title, ∀ c ∈ t, c ≠ '.' :=
      fun t ht c hc => isTokChar_ne_dot (tokenize_name_chars t ht c hc)
    exact key _
      (fun hc => shorten_from_right_dotfree hsep hts '.' hc rfl)
      (shorten_from_right_length _ _ _)

theorem get_unique_filename_advanced_length_amended_witness :
    7 ≤ 150 ∧ (get_unique_filename_advanced (("hello").data) ((".md").data)
      [] 150 true).length ≤ max 255 (150 + ((".md").data).length + 8) :=
  ⟨by decide, get_unique_filename_advanced_length_amended _ _ _ _ _ (by decide)⟩
